import Mathlib

/-!
Verification development for the vstask task runner.

This file gives a shallow embedding, in Lean 4, of the task-execution engine
of the vstask repository (a Go program): the dependency orchestrator
(`RunTask` / `runSingleTaskWithDeps` in `runner/run_task.go`), the POSIX
argument quoting (`posixQuoteForShell`), platform-override derivation
(`applyPlatformOverrides`), the npm command builder (`buildCmd`, npm case),
the input resolver (`InputResolver.Resolve`, `promptInputsForTask`,
`replaceInputs` in `runner/runner_helpers.go`), the background readiness
gate (`extractBgMatcher`, `startAndWaitReady` in `runner/runner.go`) and the
process-wait fallback chain (`startAndWait` and `startAndWaitStdio`).

Modelling conventions:
- Go maps built by `indexByLabel` (later insertions win) are modelled by a
  left fold over the task list (`goLookup`).
- Interactive prompts and shell probes are modelled by total oracles; an
  event trace records, per input id, each invocation of an underlying
  resolution source.
- Recursion over the dependency graph is modelled with explicit fuel; the Go
  code recurses without a bound and the theorems below show the fuel is
  irrelevant above an explicit bound (which is the termination statement).
- Goroutine-based parallel dependency execution is linearised: the branches
  are run left to right, threading the shared visited set exactly as the Go
  closure shares its `seen` map, and the first collected error is returned,
  as the Go code returns the first error read from its channel.
-/

namespace VsTask

/-- A task as the orchestrator sees it (`tasks.Task`, restricted to the
fields `runSingleTaskWithDeps` inspects): label, dependency labels
(`DependsOn.Tasks`, with `nil`/empty collapsed since Go only enters the
dependency block when the list is non-empty) and `DependsOrder`. -/
structure GTask where
  label : String
  dependsOn : List String
  dependsOrder : String
  deriving DecidableEq, Repr

/-- Errors produced by the orchestrator. `notFound` models
`dependsOn: task %q not found`, `cycle` models `cycle detected at %q`,
`exec` models a process failure of the task itself, `depFailed` models the
top-level wrap `dependency %q failed: %w`, and `fuelOut` marks fuel
exhaustion of the embedding (shown unreachable above the fuel bound). -/
inductive RErr where
  | notFound (lbl : String)
  | cycle (lbl : String)
  | exec (lbl : String)
  | depFailed (lbl : String) (e : RErr)
  | fuelOut
  deriving DecidableEq, Repr

/-- Mutable state threaded through a run: the per-root-invocation visited
set `seen` (the Go `seen` map keyed by label) and the global execution
trace: the labels of tasks handed to `runSingleTask`, in order. -/
structure RSt where
  seen : List String
  trace : List String
  deriving DecidableEq, Repr

/-- `strings.ToLower` restricted to ASCII (the only case the runner
compares: `dependsOrder` against `"sequence"`, input types against their
lowercase names), written so that it evaluates by kernel reduction. -/
def asciiToLower (c : Char) : Char :=
  if 'A' ≤ c ∧ c ≤ 'Z' then Char.ofNat (c.toNat + 32) else c

def goToLower (s : String) : String := String.mk (s.data.map asciiToLower)

/-- `strings.ToUpper` restricted to ASCII (used for the
`VSTASK_INPUT_<UPPERCASED_ID>` variable name). -/
def asciiToUpper (c : Char) : Char :=
  if 'a' ≤ c ∧ c ≤ 'z' then Char.ofNat (c.toNat - 32) else c

def goToUpper (s : String) : String := String.mk (s.data.map asciiToUpper)

/-- The ASCII white-space set of `strings.TrimSpace`. -/
def isGoSpace (c : Char) : Bool :=
  c = ' ' || c = '\t' || c = '\n' || c = '\r' || c = '\x0b' || c = '\x0c'

/-- `strings.TrimSpace` (ASCII white space). -/
def goTrim (s : String) : String :=
  String.mk (((s.data.dropWhile isGoSpace).reverse.dropWhile isGoSpace).reverse)

/-- `indexByLabel` followed by a Go map lookup: the last task in the list
with the given label wins, as later `m[t.Label] = t` assignments overwrite
earlier ones. -/
def goLookup (ts : List GTask) (lbl : String) : Option GTask :=
  ts.foldl (fun acc t => if t.label = lbl then some t else acc) none

/-- `runSingleTask`, abstracted: the process run is an external effect, so
its outcome is an oracle keyed by label. The label is appended to the
execution trace (the task was started and waited for), and a `false` oracle
is the process exiting with an error. -/
def execTask (oracle : String → Bool) (st : RSt) (t : GTask) :
    RSt × Except RErr Unit :=
  ({ st with trace := st.trace ++ [t.label] },
   if oracle t.label then .ok () else .error (.exec t.label))

/-- The `sequence` branch of the closure `run`, parameterised over the
runner for one task (`f` will be `runT` at the same fuel): dependencies one
at a time in listed order, aborting on the first failure (the error is
returned unwrapped, exactly as `return err` does inside `run`). -/
def runSeqF (ts : List GTask) (f : RSt → GTask → RSt × Except RErr Unit) :
    RSt → List String → RSt × Except RErr Unit
  | st, [] => (st, .ok ())
  | st, lbl :: rest =>
    match goLookup ts lbl with
    | none => (st, .error (.notFound lbl))
    | some dep =>
      match f st dep with
      | (st', .error e) => (st', .error e)
      | (st', .ok ()) => runSeqF ts f st' rest

/-- The parallel (default) branch, linearised: a missing label aborts
immediately (the Go code `return`s from inside the launch loop); otherwise
every dependency is run and its error, if any, collected; afterwards the
first collected error is returned. -/
def runParF (ts : List GTask) (f : RSt → GTask → RSt × Except RErr Unit) :
    RSt → List String → List RErr → RSt × Except RErr Unit
  | st, [], errs =>
    (st, match errs with
         | [] => .ok ()
         | e :: _ => .error e)
  | st, lbl :: rest, errs =>
    match goLookup ts lbl with
    | none => (st, .error (.notFound lbl))
    | some dep =>
      match f st dep with
      | (st', .error e) => runParF ts f st' rest (errs ++ [e])
      | (st', .ok ()) => runParF ts f st' rest errs

/-- The closure `run` inside `runSingleTaskWithDeps` (`runner/run_task.go`):
re-entering a visited label is a cycle error; otherwise the label is marked
visited, the dependencies are executed (in sequence or, by default, in
parallel — here linearised), and finally the task itself runs. The fuel
only bounds the nesting depth of the embedding; the theorems below show it
is irrelevant above an explicit bound. -/
def runT (oracle : String → Bool) (ts : List GTask) :
    Nat → RSt → GTask → RSt × Except RErr Unit
  | 0, st, _ => (st, .error .fuelOut)
  | n + 1, st, tt =>
    if tt.label ∈ st.seen then (st, .error (.cycle tt.label))
    else
      let st1 : RSt := { st with seen := tt.label :: st.seen }
      let r :=
        if tt.dependsOn = [] then (st1, Except.ok ())
        else if goToLower tt.dependsOrder = "sequence" then
          runSeqF ts (runT oracle ts n) st1 tt.dependsOn
        else
          runParF ts (runT oracle ts n) st1 tt.dependsOn []
      match r with
      | (st2, .error e) => (st2, .error e)
      | (st2, .ok ()) => execTask oracle st2 tt

/-- The `sequence` branch at one fuel level (how `runSeqF` is invoked from
`runT`). -/
def runSeq (oracle : String → Bool) (ts : List GTask) (n : Nat) :
    RSt → List String → RSt × Except RErr Unit :=
  runSeqF ts (runT oracle ts n)

/-- The parallel branch at one fuel level. -/
def runPar (oracle : String → Bool) (ts : List GTask) (n : Nat) :
    RSt → List String → List RErr → RSt × Except RErr Unit :=
  runParF ts (runT oracle ts n)

/-- `runSingleTaskWithDeps` proper: a fresh `seen` map per call (the trace,
being the outside world, is kept). -/
def runSingleTaskWithDepsM (oracle : String → Bool) (ts : List GTask)
    (n : Nat) (trace : List String) (t : GTask) : RSt × Except RErr Unit :=
  runT oracle ts n ⟨[], trace⟩ t

/-- The `sequence` loop of the top-level `RunTask`: each direct dependency
is looked up (a missing label is a fatal, unwrapped error) and run with a
fresh visited set; a failure is wrapped with the dependency's label
(`dependency %q failed: %w`) and aborts the loop. -/
def topSeq (oracle : String → Bool) (ts : List GTask) (n : Nat) :
    RSt → List String → RSt × Except RErr Unit
  | st, [] => (st, .ok ())
  | st, lbl :: rest =>
    match goLookup ts lbl with
    | none => (st, .error (.notFound lbl))
    | some dep =>
      match runSingleTaskWithDepsM oracle ts n st.trace dep with
      | (st', .error e) => (st', .error (.depFailed lbl e))
      | (st', .ok ()) => topSeq oracle ts n st' rest

/-- The parallel loop of the top-level `RunTask`, linearised: a missing
label aborts unwrapped; otherwise every direct dependency runs with a fresh
visited set, failures are wrapped with the dependency's label, and the
first collected error is returned after all branches finish. -/
def topPar (oracle : String → Bool) (ts : List GTask) (n : Nat) :
    RSt → List String → List RErr → RSt × Except RErr Unit
  | st, [], errs =>
    (st, match errs with
         | [] => .ok ()
         | e :: _ => .error e)
  | st, lbl :: rest, errs =>
    match goLookup ts lbl with
    | none => (st, .error (.notFound lbl))
    | some dep =>
      match runSingleTaskWithDepsM oracle ts n st.trace dep with
      | (st', .error e) => topPar oracle ts n st' rest (errs ++ [.depFailed lbl e])
      | (st', .ok ()) => topPar oracle ts n st' rest errs

/-- The top-level `RunTask` of `runner/run_task.go` (externals
`tasks.GetTasks` / `utils.FindProjectRoot` abstracted into the parameters):
direct dependencies first, in sequence or in parallel, then the root task
itself via `runSingleTask`. -/
def RunTaskModel (oracle : String → Bool) (ts : List GTask) (n : Nat)
    (root : GTask) : RSt × Except RErr Unit :=
  let st0 : RSt := ⟨[], []⟩
  let r :=
    if root.dependsOn = [] then (st0, Except.ok ())
    else if goToLower root.dependsOrder = "sequence" then
      topSeq oracle ts n st0 root.dependsOn
    else
      topPar oracle ts n st0 root.dependsOn []
  match r with
  | (st, .error e) => (st, .error e)
  | (st, .ok ()) => execTask oracle st root

/-! ## POSIX argument quoting (`posixQuoteForShell`, `runner/run_task.go`) -/

/-- `strings.ReplaceAll(s, old, new)` for a single-character `old` (the
replacement given as its character list). -/
def replaceAllChar (s : String) (c : Char) (rep : List Char) : String :=
  String.mk (s.toList.foldr (fun x acc => (if x = c then rep else [x]) ++ acc) [])

/-- `containsAnyRunes(s, set)`: does any rune of `s` occur in `set`? -/
def containsAnyRunes (s : String) (set : List Char) : Bool :=
  s.toList.any (fun r => set.contains r)

/-- The shell metacharacter set of `posixQuoteForShell` in
`runner/run_task.go`: `" \t\n\r;&|()<>[]{}*?!~`$\\\""` (braces and backtick
written as character codes). -/
def posixMetaChars : List Char :=
  [' ', '\t', '\n', '\r', ';', '&', '|', '(', ')', '<', '>', '[', ']',
   '\x7b', '\x7d', '*', '?', '!', '~', '\x60', '$', '\\', '\x22']

/-- `posixQuoteForShell` as in `runner/run_task.go` lines 384-400: empty
becomes a quoted empty string; a string with a single quote or an odd count
of double quotes is passed through; a string with whitespace or a shell
metacharacter is wrapped in double quotes with `\` and `"` escaped
(backslashes first, then double quotes, as the two `ReplaceAll` passes do);
anything else is passed through. -/
def posixQuoteForShell (s : String) : String :=
  if s = "" then "\x22\x22"
  else if '\x27' ∈ s.toList ∨ (s.toList.count '\x22') % 2 = 1 then s
  else if containsAnyRunes s posixMetaChars then
    let esc := replaceAllChar s '\\' ['\\', '\\']
    let esc := replaceAllChar esc '\x22' ['\\', '\x22']
    "\x22" ++ esc ++ "\x22"
  else s

/-- The variant of `posixQuoteForShell` in `runner/runner_helpers.go` lines
411-423: no unbalanced-quote pass-through; the single quote is part of the
metacharacter set instead. Embedded for comparison with the claim. -/
def posixQuoteForShellHelpers (s : String) : String :=
  if s = "" then "\x22\x22"
  else if containsAnyRunes s (posixMetaChars ++ ['\x27']) then
    let esc := replaceAllChar s '\\' ['\\', '\\']
    let esc := replaceAllChar esc '\x22' ['\\', '\x22']
    "\x22" ++ esc ++ "\x22"
  else s

/-- Spec-side escape: each backslash and each double quote is prefixed with
a backslash, every other character kept (written as one character-by-
character pass, to be compared with the code's two sequential passes). -/
def specEscapeChar (c : Char) : List Char :=
  if c = '\\' then ['\\', '\\']
  else if c = '\x22' then ['\\', '\x22']
  else [c]

def specEscape (s : String) : String :=
  String.mk (s.toList.foldr (fun c acc => specEscapeChar c ++ acc) [])

/-- Spec-side predicate: unbalanced quote characters — a single quote
present, or an odd count of double quotes. -/
def hasUnbalancedQuotes (s : String) : Prop :=
  '\x27' ∈ s.toList ∨ (s.toList.count '\x22') % 2 = 1

instance (s : String) : Decidable (hasUnbalancedQuotes s) := by
  unfold hasUnbalancedQuotes; infer_instance

/-- Spec-side predicate: contains whitespace or a shell metacharacter. -/
def needsPosixQuote (s : String) : Prop :=
  ∃ c ∈ s.toList, c ∈ posixMetaChars

instance (s : String) : Decidable (needsPosixQuote s) := by
  unfold needsPosixQuote; infer_instance

/-- The amended C5 behaviour, written from the (corrected) spec words as a
function: empty maps to a quoted empty string; unbalanced quotes pass
through; whitespace/metacharacters cause double-quote wrapping with `\` and
`"` escaped; otherwise the string passes through. -/
def posixQuoteSpecC5 (s : String) : String :=
  if s = "" then "\x22\x22"
  else if hasUnbalancedQuotes s then s
  else if needsPosixQuote s then "\x22" ++ specEscape s ++ "\x22"
  else s

/-! ## Platform overrides (`applyPlatformOverrides`) -/

/-- `tasks.Options`: only identity matters for override semantics; the
fields are the ones the runner reads. -/
structure MOptions where
  cwd : String
  env : List (String × String)
  shellExecutable : String
  shellArgs : List String
  deriving DecidableEq, Repr

/-- `tasks.Presentation` (identity only). -/
structure MPresentation where
  reveal : String
  panel : String
  deriving DecidableEq, Repr

/-- `tasks.PlatformTask`: per-OS override block. `args` is an `Option` to
keep Go's nil-slice / present-empty-slice distinction; `options` and
`presentation` are pointers in Go, hence `Option`s. -/
structure PlatformTask where
  command : String
  args : Option (List String)
  options : Option MOptions
  presentation : Option MPresentation
  deriving DecidableEq, Repr

/-- The fields of `tasks.Task` that `applyPlatformOverrides` touches or
copies through. -/
structure MTask where
  label : String
  type_ : String
  command : String
  script : String
  args : List String
  windows : Option PlatformTask
  osx : Option PlatformTask
  linux : Option PlatformTask
  options : Option MOptions
  presentation : Option MPresentation
  deriving DecidableEq, Repr

/-- One override block applied to a task, exactly as each `case` arm of
`applyPlatformOverrides` does: command if non-empty, args if the slice is
non-nil, options and presentation if the pointers are non-nil. -/
def applyOverrideBlock (t : MTask) (p : PlatformTask) : MTask :=
  let eff := t
  let eff := if p.command ≠ "" then { eff with command := p.command } else eff
  let eff := match p.args with
             | some a => { eff with args := a }
             | none => eff
  let eff := match p.options with
             | some o => { eff with options := some o }
             | none => eff
  match p.presentation with
  | some pr => { eff with presentation := some pr }
  | none => eff

/-- `applyPlatformOverrides(t)` with `runtime.GOOS` made explicit. -/
def applyPlatformOverrides (goos : String) (t : MTask) : MTask :=
  if goos = "windows" then
    match t.windows with
    | some p => applyOverrideBlock t p
    | none => t
  else if goos = "darwin" then
    match t.osx with
    | some p => applyOverrideBlock t p
    | none => t
  else if goos = "linux" then
    match t.linux with
    | some p => applyOverrideBlock t p
    | none => t
  else t

/-- The amended C9 behaviour, written from the corrected spec words: for
the current OS's override block (if any), `command` is replaced exactly
when the override command is non-empty, `args` exactly when the override
args list is present (even if empty), `options` and `presentation` exactly
when present; every other field keeps the base value, and without a block
for the current OS the task is returned unchanged. -/
def applySpecC9 (goos : String) (t : MTask) : MTask :=
  let block := if goos = "windows" then t.windows
               else if goos = "darwin" then t.osx
               else if goos = "linux" then t.linux
               else none
  match block with
  | none => t
  | some p =>
    { t with
      command := if p.command = "" then t.command else p.command
      args := p.args.getD t.args
      options := match p.options with
                 | some o => some o
                 | none => t.options
      presentation := match p.presentation with
                      | some pr => some pr
                      | none => t.presentation }

/-! ## npm command resolution (`buildCmd`, npm case, and `isNpmBuiltin`) -/

/-- `isNpmBuiltin` from `runner/cmd_npm.go`: the fixed set of native npm
subcommands. -/
def isNpmBuiltin (cmd : String) : Bool :=
  cmd = "install" || cmd = "ci" || cmd = "publish" || cmd = "pack" ||
  cmd = "update" || cmd = "outdated" || cmd = "rebuild" || cmd = "version" ||
  cmd = "login" || cmd = "logout" || cmd = "whoami" || cmd = "init" ||
  cmd = "create" || cmd = "audit" || cmd = "prune" || cmd = "cache" ||
  cmd = "config" || cmd = "root" || cmd = "help" || cmd = "search" ||
  cmd = "exec" || cmd = "add" || cmd = "remove" || cmd = "link" ||
  cmd = "unlink" || cmd = "run" || cmd = "run-script"

/-- The npm case of `buildCmd`: given the resolved package-manager
executable and the task's script/command/args, the argv of the command to
start (executable first), or a configuration error. -/
def buildCmdNpm (npmExe : String) (script command : String)
    (args : List String) : Except String (List String) :=
  if goTrim script ≠ "" then
    .ok (npmExe :: "run" :: goTrim script ::
         (if args = [] then [] else "--" :: args))
  else
    let c := goTrim command
    match (if c ≠ "" then some (c, args)
           else match args with
                | [] => none
                | a :: rest => some (a, rest)) with
    | none => .error "npm task missing command/script"
    | some (cmdName, rest) =>
      if cmdName = "run" ∨ cmdName = "run-script" then
        match rest with
        | [] => .error "npm run requires a script name"
        | s :: more =>
          .ok (npmExe :: "run" :: s ::
               (if more = [] then [] else "--" :: more))
      else if isNpmBuiltin cmdName then
        .ok (npmExe :: cmdName :: rest)
      else
        .ok (npmExe :: "run" :: cmdName ::
             (if rest = [] then [] else "--" :: rest))

/-! ## Input resolution (`InputResolver`, `runner/runner_helpers.go`)

The regular expression `\$\x7binput:([^\x7d]+)\x7d` is realised as a
hand-written leftmost scanner (`matchInputAt` / `parseSegs`); both
`collectInputRefsFromTask` (`FindAllStringSubmatch`) and `replaceInputs`
(`ReplaceAllStringFunc`) are derived from the same segment decomposition,
which makes them agree on the set and order of matches by construction. -/

/-- An input definition (`tasks.Input`). -/
structure InputDef where
  id : String
  type_ : String
  description : String
  default_ : String
  password : Bool
  options : List String
  command : String
  deriving DecidableEq, Repr

/-- The interactive and shell effects of input resolution, abstracted as
total oracles (a prompt returns what the user would type, a shell probe
returns the captured stdout; I/O failures are outside this model). -/
structure ResolveOracles where
  promptStr : String → String → Bool → String
  promptSel : String → List String → String → String
  linePrompt : String → String → String
  shellOut : String → String

/-- The literal `${input:` as characters (brace written as a code). -/
def inputRefPrefix : List Char := ['$', '\x7b', 'i', 'n', 'p', 'u', 't', ':']

/-- Try to match `\$\x7binput:([^\x7d]+)\x7d` at the head of `cs`; on
success return the captured id and the characters after the closing
brace. -/
def matchInputAt (cs : List Char) : Option (String × List Char) :=
  if cs.take 8 = inputRefPrefix then
    let rest := cs.drop 8
    let idChars := rest.takeWhile (fun c => c ≠ '\x7d')
    if idChars ≠ [] ∧ (rest.drop idChars.length).head? = some '\x7d' then
      some (String.mk idChars, rest.drop (idChars.length + 1))
    else none
  else none

theorem matchInputAt_length_lt {cs : List Char} {id : String}
    {after : List Char} (h : matchInputAt cs = some (id, after)) :
    after.length < cs.length := by
  unfold matchInputAt at h
  by_cases hp : cs.take 8 = inputRefPrefix
  · rw [if_pos hp] at h
    have h8 : 8 ≤ cs.length := by
      have := congrArg List.length hp
      simp [List.length_take, inputRefPrefix] at this
      omega
    by_cases hg : (cs.drop 8).takeWhile (fun c => c ≠ '\x7d') ≠ [] ∧
        ((cs.drop 8).drop ((cs.drop 8).takeWhile (fun c => c ≠ '\x7d')).length).head? = some '\x7d'
    · rw [if_pos hg] at h
      have hafter : after = (cs.drop 8).drop
          (((cs.drop 8).takeWhile (fun c => c ≠ '\x7d')).length + 1) := by
        have := (Option.some.injEq _ _).mp h
        exact (Prod.mk.injEq .. ▸ this).2.symm
      have : after.length ≤ (cs.drop 8).length := by
        rw [hafter]; simp [List.length_drop]; omega
      have hdl : (cs.drop 8).length = cs.length - 8 := by simp
      omega
    · rw [if_neg hg] at h; exact absurd h (by simp)
  · rw [if_neg hp] at h; exact absurd h (by simp)

/-- One segment of a scanned string: a literal character or a captured
input id. -/
inductive Seg where
  | lit (c : Char)
  | ref (id : String)
  deriving DecidableEq, Repr

/-- Decompose a string into literals and `${input:ID}` references, left to
right, exactly as the non-overlapping leftmost matching of the regexp
proceeds. -/
def parseSegs (cs : List Char) : List Seg :=
  match cs with
  | [] => []
  | c :: rest =>
    match h : matchInputAt (c :: rest) with
    | some (id, after) => .ref id :: parseSegs after
    | none => .lit c :: parseSegs rest
termination_by cs.length
decreasing_by
  · exact matchInputAt_length_lt h
  · simp

/-- The ids of a segment list, in order (with duplicates). -/
def refsOfSegs (segs : List Seg) : List String :=
  segs.foldr
    (fun sg acc => match sg with
                   | .ref id => id :: acc
                   | .lit _ => acc) []

/-- `reInput.FindAllStringSubmatch`: the ids referenced in a string, in
match order (with duplicates). -/
def refsOf (s : String) : List String :=
  refsOfSegs (parseSegs s.toList)

/-- Iteration of Go's `seen` set in `collectInputRefsFromTask`, made
deterministic: keep the first occurrence of each id. The claims proved
below do not depend on the order, only on distinctness and membership. -/
def goDedup (l : List String) : List String :=
  l.foldl (fun acc x => if x ∈ acc then acc else acc ++ [x]) []

/-- The strings of an effective task that are scanned for input
references, in the order `collectInputRefsFromTask` visits them: command,
args, options.cwd, options.env values. -/
structure SubstTask where
  command : String
  args : List String
  cwd : String
  env : List (String × String)
  deriving DecidableEq, Repr

/-- `collectInputRefsFromTask`: the distinct input ids referenced anywhere
in the task. -/
def collectInputRefsFromTask (t : SubstTask) : List String :=
  goDedup (refsOf t.command ++ t.args.foldr (fun a acc => refsOf a ++ acc) []
           ++ refsOf t.cwd ++ t.env.foldr (fun kv acc => refsOf kv.2 ++ acc) [])

/-- Assoc-list lookup for the resolver cache (`r.cache[id]`). -/
def cacheGet (cache : List (String × String)) (id : String) : Option String :=
  match cache with
  | [] => none
  | (k, v) :: rest => if k = id then some v else cacheGet rest id

/-- `NewInputResolver`'s `byID` map: later inputs with the same id
overwrite earlier ones. -/
def lookupInput (inputs : List InputDef) (id : String) : Option InputDef :=
  inputs.foldl (fun acc i => if i.id = id then some i else acc) none

/-- `runInputShell`: empty script short-circuits; otherwise the shell
oracle's captured stdout. -/
def runInputShell (orc : ResolveOracles) (script : String) : String :=
  if goTrim script = "" then "" else orc.shellOut script

/-- `InputResolver.Resolve`. The environment is `String → Option String`
(the OS distinguishes unset from set-to-empty even though `os.Getenv`
collapses the two — `getD ""` is exactly that collapse). The returned
event list names the ids for which an underlying resolution source (a
prompt or a shell command) was invoked by this call. -/
def Resolve (env : String → Option String) (inputs : List InputDef)
    (orc : ResolveOracles) (cache : List (String × String)) (id : String) :
    String × List (String × String) × List String :=
  match cacheGet cache id with
  | some v => (v, cache, [])
  | none =>
    let ev := (env ("VSTASK_INPUT_" ++ goToUpper id)).getD ""
    if ev ≠ "" then (ev, cache ++ [(id, ev)], [])
    else
      match lookupInput inputs id with
      | none =>
        let v := orc.linePrompt ("Enter value for " ++ id) ""
        (v, cache ++ [(id, v)], [id])
      | some def_ =>
        if goToLower def_.type_ = "promptstring" then
          let lbl := if goTrim def_.description = "" then "Enter " ++ def_.id
                     else def_.description
          let v := orc.promptStr lbl def_.default_ def_.password
          (v, cache ++ [(id, v)], [id])
        else if goToLower def_.type_ = "pickstring" then
          if def_.options = [] then
            let lbl := if goTrim def_.description = "" then "Enter " ++ def_.id
                       else def_.description
            let v := orc.promptStr lbl def_.default_ false
            (v, cache ++ [(id, v)], [id])
          else
            let lbl := if def_.description = "" then
                         (if def_.id ≠ "" then "Select " ++ def_.id
                          else "Select an option")
                       else def_.description
            let v := orc.promptSel lbl def_.options def_.default_
            (v, cache ++ [(id, v)], [id])
        else if goToLower def_.type_ = "command" then
          let out := goTrim (runInputShell orc def_.command)
          if out = "" then
            if def_.default_ ≠ "" then
              (def_.default_, cache ++ [(id, def_.default_)], [id])
            else
              let lbl := if goTrim def_.description = "" then "Enter " ++ def_.id
                         else def_.description
              let v := orc.promptStr lbl "" false
              (v, cache ++ [(id, v)], [id])
          else (out, cache ++ [(id, out)], [id])
        else
          let v := orc.promptStr ("Enter " ++ def_.id) def_.default_ false
          (v, cache ++ [(id, v)], [id])

/-- `promptInputsForTask`: resolve (and thereby cache) every collected id
before any substitution, accumulating the source-invocation events. -/
def promptInputsForTask (env : String → Option String)
    (inputs : List InputDef) (orc : ResolveOracles)
    (cache : List (String × String)) (ids : List String) :
    List (String × String) × List String :=
  match ids with
  | [] => (cache, [])
  | id :: rest =>
    let (_, cache', evs) := Resolve env inputs orc cache id
    let (cache'', evs') := promptInputsForTask env inputs orc cache' rest
    (cache'', evs ++ evs')

/-- `replaceInputs` on one string: every `${input:ID}` match is replaced by
`Resolve ID` (left to right, replacement text never rescanned, exactly as
`ReplaceAllStringFunc` does), threading the cache and collecting events. -/
def replaceSegs (env : String → Option String) (inputs : List InputDef)
    (orc : ResolveOracles) (cache : List (String × String))
    (segs : List Seg) : String × List (String × String) × List String :=
  match segs with
  | [] => ("", cache, [])
  | .lit c :: rest =>
    let (s, cache', evs) := replaceSegs env inputs orc cache rest
    (String.singleton c ++ s, cache', evs)
  | .ref id :: rest =>
    let (v, cache', evs) := Resolve env inputs orc cache id
    let (s, cache'', evs') := replaceSegs env inputs orc cache' rest
    (v ++ s, cache'', evs ++ evs')

def replaceInputs (env : String → Option String) (inputs : List InputDef)
    (orc : ResolveOracles) (cache : List (String × String)) (s : String) :
    String × List (String × String) × List String :=
  replaceSegs env inputs orc cache (parseSegs s.toList)

/-- Substitution over a list of strings (the args loop / env loop). -/
def replaceInputsList (env : String → Option String)
    (inputs : List InputDef) (orc : ResolveOracles)
    (cache : List (String × String)) (ss : List String) :
    List String × List (String × String) × List String :=
  match ss with
  | [] => ([], cache, [])
  | s :: rest =>
    let (s', cache', evs) := replaceInputs env inputs orc cache s
    let (rest', cache'', evs') := replaceInputsList env inputs orc cache' rest
    (s' :: rest', cache'', evs ++ evs')

/-- The input-resolution part of `runTaskInternal` for one task: prompt
for every referenced id first (`promptInputsForTask`), then substitute the
cwd option, the command, each arg and each env value, in the order the Go
code performs these passes. Returns the final cache and all
source-invocation events in order. -/
def taskInputsPipeline (env : String → Option String)
    (inputs : List InputDef) (orc : ResolveOracles) (t : SubstTask) :
    List (String × String) × List String :=
  let (cache1, evs1) :=
    promptInputsForTask env inputs orc [] (collectInputRefsFromTask t)
  let (_, cache2, evs2) := replaceInputs env inputs orc cache1 t.cwd
  let (_, cache3, evs3) := replaceInputs env inputs orc cache2 t.command
  let (_, cache4, evs4) := replaceInputsList env inputs orc cache3 t.args
  let (_, cache5, evs5) :=
    replaceInputsList env inputs orc cache4 (t.env.map (·.2))
  (cache5, evs1 ++ evs2 ++ evs3 ++ evs4 ++ evs5)

/-! ## Readiness gate (`extractBgMatcher` / `startAndWaitReady`,
`runner/runner.go`) -/

/-- `tasks.ProblemMatcherBackground`. -/
structure PMBackground where
  activeOnStart : Bool
  beginsPattern : String
  endsPattern : String
  deriving DecidableEq, Repr

/-- One problem-matcher entry: a string alias or an object with an
optional `background` block (the other object fields play no role in
readiness). -/
inductive PMElem where
  | str (s : String)
  | obj (background : Option PMBackground)
  deriving DecidableEq, Repr

/-- The builtin alias table (`builtinBackgroundByAlias`): only
`$tsc-watch`. -/
def builtinBackgroundByAlias (s : String) : Option PMBackground :=
  if s = "$tsc-watch" then
    some ⟨false, "(?i)\\bwatch(ing)? for file changes\\b|^Starting compilation in watch mode", ""⟩
  else none

/-- `ProblemMatcher.FirstBackground`: first object entry whose background
block is usable (activeOnStart or a non-blank beginsPattern, both patterns
trimmed), else the first string entry that is a known alias. -/
def firstBackground (elems : List PMElem) : Option PMBackground :=
  let fromObjs := elems.foldr
    (fun e acc =>
      match e with
      | .obj (some bg) =>
        let bg' : PMBackground :=
          ⟨bg.activeOnStart, goTrim bg.beginsPattern, goTrim bg.endsPattern⟩
        if bg'.activeOnStart || bg'.beginsPattern ≠ "" then some bg' else acc
      | _ => acc) none
  match fromObjs with
  | some bg => some bg
  | none =>
    elems.foldr
      (fun e acc =>
        match e with
        | .str s => match builtinBackgroundByAlias (goTrim s) with
                    | some bg => some bg
                    | none => acc
        | _ => acc) none

/-- A task as the readiness gate sees it. -/
structure BgTask where
  isBackground : Bool
  problemMatcher : Option (List PMElem)

/-- `tasks.BgMatcher` with the compiled regular expressions abstracted as
match predicates. -/
structure BgMatcher where
  activeOnStart : Bool
  beginsRx : Option (String → Bool)
  endsRx : Option (String → Bool)

/-- `extractBgMatcher`: requires a background task with a problem matcher
whose first background block is usable; compiles the begin/end patterns
(compilation may fail, yielding no predicate — `compile` abstracts
`regexp.Compile`); bails out if neither activeOnStart nor a compiled
begin pattern is available. -/
def extractBgMatcher (compile : String → Option (String → Bool))
    (t : BgTask) : Option BgMatcher :=
  if !t.isBackground then none
  else
    match t.problemMatcher with
    | none => none
    | some elems =>
      match firstBackground elems with
      | none => none
      | some bg =>
        let beginsRx := if goTrim bg.beginsPattern ≠ ""
                        then compile (goTrim bg.beginsPattern) else none
        let endsRx := if goTrim bg.endsPattern ≠ ""
                      then compile (goTrim bg.endsPattern) else none
        if !bg.activeOnStart && beginsRx.isNone then none
        else some ⟨bg.activeOnStart, beginsRx, endsRx⟩

/-- One observable event of the running process, in the linearisation the
scanning goroutines and the exit waiter produce: an output line (from
either stream, as read by `ReadString('\n')`) or process exit (`true` for
a zero exit status). -/
inductive PEvent where
  | line (s : String)
  | exit (ok : Bool)
  deriving DecidableEq, Repr

/-- Result of a readiness-gated run: `ready rest` is the call returning
success while the process keeps running (with `rest` the events not yet
consumed — in particular the exit), `exited ok` is the process finishing
before readiness, `streamEnded` marks the stream ending without an exit
event (unreachable for a real process). -/
inductive ReadyResult where
  | ready (rest : List PEvent)
  | exited (ok : Bool)
  | streamEnded
  deriving Repr

/-- Does this line fire readiness? Per the scan loop: only a non-empty
read is considered; `ActiveOnStart` fires on it directly, otherwise the
begin pattern must match. -/
def firesReady (bg : BgMatcher) (l : String) : Bool :=
  decide (0 < l.length) &&
    (bg.activeOnStart ||
      (match bg.beginsRx with
       | some p => p l
       | none => false))

/-- `startAndWaitReady` in readiness-gated mode (`bg` present,
`waitForReady` true): each line is mirrored and tested; the first firing
line returns success immediately with the process still running; an exit
seen before any firing line is returned as the result. -/
def startAndWaitReady (bg : BgMatcher) : List PEvent → ReadyResult
  | [] => .streamEnded
  | .line l :: rest =>
    if firesReady bg l then .ready rest else startAndWaitReady bg rest
  | .exit ok :: _ => .exited ok

/-! ## Process wait and fallback chain (`startAndWait`,
`startAndWaitStdio`) -/

/-- A run error as `startAndWait` sees it: a process exit with non-zero
status, a start error (with its execution-permission classification, as
`isExecPermissionError` / `shouldFallbackToSh` compute it), or the
"killed" outcome of the cancellation path. -/
inductive WErr where
  | exit (code : Nat)
  | startFailed (permClass : Bool)
  | killed
  deriving DecidableEq, Repr

/-- `isExecPermissionError` on a run error. -/
def isExecPermClass : WErr → Bool
  | .startFailed p => p
  | _ => false

/-- `shouldFallbackToSh(cmd, err)`: only for a bash-family executable, and
only when the error is a permission/path-class start error; `nil` errors
never trigger the fallback. -/
def shouldFallbackToSh (isBash : Bool) (e : Option WErr) : Bool :=
  match e with
  | none => false
  | some e' => isBash && isExecPermClass e'

/-- Outcome of a `maybeStartWithPTY` attempt: full success (a usable PTY),
no PTY without error (`ok` false or a nil master), or a start error.
`fail p` carries the `isExecPermissionError` classification `p`. -/
inductive PtyStart where
  | ok
  | noPty
  | fail (permClass : Bool)
  deriving DecidableEq, Repr

/-- The abstract behaviour of one command's start/wait attempts: what each
step of `startAndWait`'s fallback chain would observe. `none` is a nil
error (success). -/
structure SWBehavior where
  canPTY : Bool
  isBash : Bool
  ptyStart1 : PtyStart
  ptyWait1 : Option WErr
  ptyStart2 : PtyStart
  ptyWait2 : Option WErr
  stdioClone : Option WErr
  shAfterClone : Option WErr
  stdioMain : Option WErr
  shAfterMain : Option WErr
  deriving Repr

/-- The stdio tail of `startAndWait` (`src/unnamed/part_005` lines 48-56),
embedded verbatim including the named-return slip: the result of
`startAndWaitStdio` is bound to a local `err` that is only compared to
nil, while `shouldFallbackToSh` and the final `return` consult the named
return value `retErr`, which is never assigned and is still nil. -/
def startAndWaitStdioTail (b : SWBehavior) : Option WErr :=
  let retErr : Option WErr := none
  match b.stdioMain with
  | none => none
  | some _ =>
    if shouldFallbackToSh b.isBash retErr then b.shAfterMain else retErr

/-- `startAndWait`: PTY first when interactive and allowed; on a
permission-class PTY failure, retry PTY without the process group, then
stdio without the process group (handled correctly with its own `err3`),
then an sh swap; in every other case fall through to the stdio tail. -/
def startAndWait (b : SWBehavior) (interactive : Bool) : Option WErr :=
  if interactive && b.canPTY then
    match b.ptyStart1 with
    | .ok => b.ptyWait1
    | .fail true =>
      match b.ptyStart2 with
      | .ok => b.ptyWait2
      | _ =>
        match b.stdioClone with
        | none => none
        | some e3 =>
          if shouldFallbackToSh b.isBash (some e3) then b.shAfterClone
          else some e3
    | _ => startAndWaitStdioTail b
  else startAndWaitStdioTail b

/-- The tail of `runTaskInternal`'s normal path (`runner/runner.go` lines
243-254): `startAndWait` with interactive true, then a correctly-guarded
bash-to-sh retry on the returned error. -/
def runNormalPath (b : SWBehavior) : Option WErr :=
  match startAndWait b true with
  | none => none
  | some e =>
    if shouldFallbackToSh b.isBash (some e) then b.shAfterMain
    else some e

/-! ## Lemmas about the dependency orchestrator -/

section Orchestrator

variable (oracle : String → Bool) (ts : List GTask)

theorem goLookup_aux {lbl : String} {t : GTask} :
    ∀ (l : List GTask) (acc : Option GTask),
      l.foldl (fun acc t => if t.label = lbl then some t else acc) acc = some t →
      acc = some t ∨ (t ∈ l ∧ t.label = lbl) := by
  intro l
  induction l with
  | nil => intro acc h; exact Or.inl h
  | cons x xs ih =>
    intro acc h
    rcases ih _ h with h' | h'
    · dsimp only at h'
      by_cases hx : x.label = lbl
      · rw [if_pos hx] at h'
        have hxt : x = t := (Option.some.injEq _ _).mp h'
        exact Or.inr ⟨by rw [← hxt]; exact List.mem_cons_self _ _, by rw [← hxt]; exact hx⟩
      · rw [if_neg hx] at h'
        exact Or.inl h'
    · exact Or.inr ⟨List.mem_cons_of_mem _ h'.1, h'.2⟩

theorem goLookup_mem {lbl : String} {t : GTask}
    (h : goLookup ts lbl = some t) : t ∈ ts ∧ t.label = lbl := by
  rcases goLookup_aux ts none h with h' | h'
  · exact absurd h' (by simp)
  · exact h'

/-- The labels of the task index not yet visited: the termination measure
of the Go recursion. -/
def Mcount (seen : List String) : Nat :=
  (((ts.map (·.label)).dedup).filter (fun l => decide (l ∉ seen))).length

theorem filter_length_mono {p q : String → Bool}
    (hpq : ∀ x, p x = true → q x = true) :
    ∀ l : List String, (l.filter p).length ≤ (l.filter q).length := by
  intro l
  induction l with
  | nil => simp
  | cons x xs ih =>
    rw [List.filter_cons, List.filter_cons]
    by_cases hx : p x = true
    · rw [if_pos hx, if_pos (hpq x hx)]
      simpa using ih
    · rw [if_neg hx]
      by_cases hq : q x = true
      · rw [if_pos hq]
        simp only [List.length_cons]
        omega
      · rw [if_neg hq]
        exact ih

theorem Mcount_anti {seen seen' : List String} (h : seen ⊆ seen') :
    Mcount ts seen' ≤ Mcount ts seen := by
  unfold Mcount
  exact filter_length_mono (fun x hx => by
    simp only [decide_eq_true_eq] at hx ⊢
    exact fun hmem => hx (h hmem)) _

theorem filter_length_strict {p q : String → Bool}
    (hpq : ∀ x, p x = true → q x = true) {a : String}
    (hqa : q a = true) (hpa : p a = false) :
    ∀ l : List String, a ∈ l →
      (l.filter p).length < (l.filter q).length := by
  intro l
  induction l with
  | nil => simp
  | cons x xs ih =>
    intro hmem
    rw [List.filter_cons, List.filter_cons]
    by_cases hx : x = a
    · subst hx
      rw [if_pos hqa, if_neg (by rw [hpa]; simp)]
      have := filter_length_mono hpq xs
      simp only [List.length_cons]
      omega
    · have h' : a ∈ xs := by
        rcases List.mem_cons.mp hmem with h' | h'
        · exact absurd h'.symm hx
        · exact h'
      have := ih h'
      by_cases hp : p x = true
      · rw [if_pos hp, if_pos (hpq x hp)]
        simp only [List.length_cons]
        omega
      · rw [if_neg hp]
        by_cases hq : q x = true
        · rw [if_pos hq]
          simp only [List.length_cons]
          omega
        · rw [if_neg hq]
          exact this

theorem Mcount_lt {t : GTask} {seen : List String}
    (hmem : t ∈ ts) (hseen : t.label ∉ seen) :
    Mcount ts (t.label :: seen) < Mcount ts seen := by
  unfold Mcount
  refine filter_length_strict
    (fun y hy => by
      simp only [decide_eq_true_eq, List.mem_cons] at hy ⊢
      exact fun hm => hy (Or.inr hm))
    (by simpa using hseen)
    (by simp)
    _ (List.mem_dedup.mpr (List.mem_map_of_mem _ hmem))

theorem Mcount_le_card : ∀ seen, Mcount ts seen ≤ ts.length := by
  intro seen
  unfold Mcount
  calc _ ≤ ((ts.map (·.label)).dedup).length := List.length_filter_le _ _
    _ ≤ (ts.map (·.label)).length := (List.dedup_sublist _).length_le
    _ = ts.length := List.length_map _ _

/-- Restated step equations for the runner (the definitions are by
well-founded recursion, so these are the handles the proofs use). -/
theorem runT_zero (st : RSt) (tt : GTask) :
    runT oracle ts 0 st tt = (st, .error .fuelOut) := by
  rw [runT]

/-- The dependency-processing step of one `runT` level, named so that the
proofs can treat it atomically. -/
def runDeps (oracle : String → Bool) (ts : List GTask) (n : Nat) (st1 : RSt)
    (tt : GTask) : RSt × Except RErr Unit :=
  if tt.dependsOn = [] then (st1, Except.ok ())
  else if goToLower tt.dependsOrder = "sequence" then
    runSeq oracle ts n st1 tt.dependsOn
  else
    runPar oracle ts n st1 tt.dependsOn []

theorem runT_succ_seen {st : RSt} {tt : GTask} (n : Nat)
    (h : tt.label ∈ st.seen) :
    runT oracle ts (n + 1) st tt = (st, .error (.cycle tt.label)) := by
  rw [runT]
  simp [h]

theorem runT_succ_deps_err {st st2 : RSt} {tt : GTask} {e : RErr} (n : Nat)
    (h : tt.label ∉ st.seen)
    (hd : runDeps oracle ts n { st with seen := tt.label :: st.seen } tt = (st2, .error e)) :
    runT oracle ts (n + 1) st tt = (st2, .error e) := by
  rw [runT]
  simp only [if_neg h]
  have hd' : (if tt.dependsOn = [] then ({ st with seen := tt.label :: st.seen }, Except.ok ())
      else if goToLower tt.dependsOrder = "sequence" then
        runSeqF ts (runT oracle ts n) { st with seen := tt.label :: st.seen } tt.dependsOn
      else runParF ts (runT oracle ts n) { st with seen := tt.label :: st.seen } tt.dependsOn []) = (st2, Except.error e) := hd
  rw [hd']

theorem runT_succ_deps_ok {st st2 : RSt} {tt : GTask} (n : Nat)
    (h : tt.label ∉ st.seen)
    (hd : runDeps oracle ts n { st with seen := tt.label :: st.seen } tt = (st2, .ok ())) :
    runT oracle ts (n + 1) st tt = execTask oracle st2 tt := by
  rw [runT]
  simp only [if_neg h]
  have hd' : (if tt.dependsOn = [] then ({ st with seen := tt.label :: st.seen }, Except.ok ())
      else if goToLower tt.dependsOrder = "sequence" then
        runSeqF ts (runT oracle ts n) { st with seen := tt.label :: st.seen } tt.dependsOn
      else runParF ts (runT oracle ts n) { st with seen := tt.label :: st.seen } tt.dependsOn []) = (st2, Except.ok ()) := hd
  rw [hd']

theorem runSeq_nil (n : Nat) (st : RSt) :
    runSeq oracle ts n st [] = (st, .ok ()) := by
  rw [runSeq, runSeqF]

theorem runSeq_cons_none {lbl : String} (n : Nat) (st : RSt)
    (rest : List String) (hlk : goLookup ts lbl = none) :
    runSeq oracle ts n st (lbl :: rest) = (st, .error (.notFound lbl)) := by
  simp only [runSeq, runSeqF, hlk]

theorem runSeq_cons_err {lbl : String} {dep : GTask} {st' : RSt} {e : RErr}
    (n : Nat) (st : RSt) (rest : List String)
    (hlk : goLookup ts lbl = some dep)
    (hr : runT oracle ts n st dep = (st', .error e)) :
    runSeq oracle ts n st (lbl :: rest) = (st', .error e) := by
  simp only [runSeq, runSeqF, hlk, hr]

theorem runSeq_cons_ok {lbl : String} {dep : GTask} {st' : RSt}
    (n : Nat) (st : RSt) (rest : List String)
    (hlk : goLookup ts lbl = some dep)
    (hr : runT oracle ts n st dep = (st', .ok ())) :
    runSeq oracle ts n st (lbl :: rest) = runSeq oracle ts n st' rest := by
  simp only [runSeq, runSeqF, hlk, hr]

theorem runPar_nil (n : Nat) (st : RSt) (errs : List RErr) :
    runPar oracle ts n st [] errs =
      (st, match errs with
           | [] => .ok ()
           | e :: _ => .error e) := by
  rw [runPar, runParF.eq_def]

theorem runPar_nil_nil (n : Nat) (st : RSt) :
    runPar oracle ts n st [] [] = (st, .ok ()) := by
  simp only [runPar, runParF]

theorem runPar_nil_cons (n : Nat) (st : RSt) (e : RErr) (es : List RErr) :
    runPar oracle ts n st [] (e :: es) = (st, .error e) := by
  simp only [runPar, runParF]

theorem runPar_cons_none {lbl : String} (n : Nat) (st : RSt)
    (rest : List String) (errs : List RErr) (hlk : goLookup ts lbl = none) :
    runPar oracle ts n st (lbl :: rest) errs = (st, .error (.notFound lbl)) := by
  simp only [runPar, runParF, hlk]

theorem runPar_cons_err {lbl : String} {dep : GTask} {st' : RSt} {e : RErr}
    (n : Nat) (st : RSt) (rest : List String) (errs : List RErr)
    (hlk : goLookup ts lbl = some dep)
    (hr : runT oracle ts n st dep = (st', .error e)) :
    runPar oracle ts n st (lbl :: rest) errs =
      runPar oracle ts n st' rest (errs ++ [e]) := by
  simp only [runPar, runParF, hlk, hr]

theorem runPar_cons_ok {lbl : String} {dep : GTask} {st' : RSt}
    (n : Nat) (st : RSt) (rest : List String) (errs : List RErr)
    (hlk : goLookup ts lbl = some dep)
    (hr : runT oracle ts n st dep = (st', .ok ())) :
    runPar oracle ts n st (lbl :: rest) errs =
      runPar oracle ts n st' rest errs := by
  simp only [runPar, runParF, hlk, hr]

/-- Monotonicity of the visited set and of the trace through one run:
`seen` only grows and the trace is only appended to, in every outcome. -/
theorem mono_all : ∀ n : Nat,
    (∀ st tt, st.seen ⊆ (runT oracle ts n st tt).1.seen ∧
      st.trace <+: (runT oracle ts n st tt).1.trace)
  ∧ (∀ st lst, st.seen ⊆ (runSeq oracle ts n st lst).1.seen ∧
      st.trace <+: (runSeq oracle ts n st lst).1.trace)
  ∧ (∀ st lst errs, st.seen ⊆ (runPar oracle ts n st lst errs).1.seen ∧
      st.trace <+: (runPar oracle ts n st lst errs).1.trace) := by
  have triv : ∀ st : RSt, st.seen ⊆ st.seen ∧ st.trace <+: st.trace :=
    fun st => ⟨fun _ h => h, List.prefix_refl _⟩
  intro n
  induction n with
  | zero =>
    refine ⟨fun st tt => ?_, fun st lst => ?_, fun st lst errs => ?_⟩
    · rw [runT_zero]; exact triv st
    · cases lst with
      | nil => rw [runSeq_nil]; exact triv st
      | cons lbl rest =>
        rcases hlk : goLookup ts lbl with _ | dep
        · rw [runSeq_cons_none oracle ts 0 st rest hlk]; exact triv st
        · rw [runSeq_cons_err oracle ts 0 st rest hlk (runT_zero oracle ts st dep)]
          exact triv st
    · induction lst generalizing st errs with
      | nil =>
        cases errs with
        | nil => rw [runPar_nil_nil]; exact triv st
        | cons e es => rw [runPar_nil_cons]; exact triv st
      | cons lbl rest ihl =>
        rcases hlk : goLookup ts lbl with _ | dep
        · rw [runPar_cons_none oracle ts 0 st rest errs hlk]; exact triv st
        · rw [runPar_cons_err oracle ts 0 st rest errs hlk (runT_zero oracle ts st dep)]
          exact ihl st (errs ++ [.fuelOut])
  | succ n ih =>
    obtain ⟨ihT, ihS, ihP⟩ := ih
    have hDeps : ∀ st1 tt, st1.seen ⊆ (runDeps oracle ts n st1 tt).1.seen ∧
        st1.trace <+: (runDeps oracle ts n st1 tt).1.trace := by
      intro st1 tt
      unfold runDeps
      by_cases h0 : tt.dependsOn = []
      · rw [if_pos h0]; exact triv st1
      · rw [if_neg h0]
        by_cases h1 : goToLower tt.dependsOrder = "sequence"
        · rw [if_pos h1]; exact ihS st1 tt.dependsOn
        · rw [if_neg h1]; exact ihP st1 tt.dependsOn []
    have hT : ∀ st tt, st.seen ⊆ (runT oracle ts (n + 1) st tt).1.seen ∧
        st.trace <+: (runT oracle ts (n + 1) st tt).1.trace := by
      intro st tt
      by_cases hseen : tt.label ∈ st.seen
      · rw [runT_succ_seen oracle ts n hseen]; exact triv st
      · have hd := hDeps { st with seen := tt.label :: st.seen } tt
        rcases hr : runDeps oracle ts n { st with seen := tt.label :: st.seen } tt with ⟨st2, res⟩
        rw [hr] at hd
        have hsub : st.seen ⊆ st2.seen := fun x hx =>
          hd.1 (List.mem_cons_of_mem _ hx)
        cases res with
        | error e =>
          rw [runT_succ_deps_err oracle ts n hseen hr]
          exact ⟨hsub, hd.2⟩
        | ok u =>
          cases u
          rw [runT_succ_deps_ok oracle ts n hseen hr]
          unfold execTask
          exact ⟨hsub, hd.2.trans (List.prefix_append _ _)⟩
    refine ⟨hT, fun st lst => ?_, fun st lst errs => ?_⟩
    · induction lst generalizing st with
      | nil => rw [runSeq_nil]; exact triv st
      | cons lbl rest ihl =>
        rcases hlk : goLookup ts lbl with _ | dep
        · rw [runSeq_cons_none oracle ts (n + 1) st rest hlk]; exact triv st
        · have h1 := hT st dep
          rcases hr : runT oracle ts (n + 1) st dep with ⟨stA, r⟩
          rw [hr] at h1
          cases r with
          | error e =>
            rw [runSeq_cons_err oracle ts (n + 1) st rest hlk hr]
            exact h1
          | ok u =>
            cases u
            rw [runSeq_cons_ok oracle ts (n + 1) st rest hlk hr]
            have h2 := ihl stA
            exact ⟨fun x hx => h2.1 (h1.1 hx), h1.2.trans h2.2⟩
    · induction lst generalizing st errs with
      | nil =>
        cases errs with
        | nil => rw [runPar_nil_nil]; exact triv st
        | cons e es => rw [runPar_nil_cons]; exact triv st
      | cons lbl rest ihl =>
        rcases hlk : goLookup ts lbl with _ | dep
        · rw [runPar_cons_none oracle ts (n + 1) st rest errs hlk]; exact triv st
        · have h1 := hT st dep
          rcases hr : runT oracle ts (n + 1) st dep with ⟨stA, r⟩
          rw [hr] at h1
          cases r with
          | error e =>
            rw [runPar_cons_err oracle ts (n + 1) st rest errs hlk hr]
            have h2 := ihl stA (errs ++ [e])
            exact ⟨fun x hx => h2.1 (h1.1 hx), h1.2.trans h2.2⟩
          | ok u =>
            cases u
            rw [runPar_cons_ok oracle ts (n + 1) st rest errs hlk hr]
            have h2 := ihl stA errs
            exact ⟨fun x hx => h2.1 (h1.1 hx), h1.2.trans h2.2⟩

theorem runT_seen_mono (n : Nat) (st : RSt) (tt : GTask) :
    st.seen ⊆ (runT oracle ts n st tt).1.seen :=
  ((mono_all oracle ts n).1 st tt).1

theorem runT_trace_mono (n : Nat) (st : RSt) (tt : GTask) :
    st.trace <+: (runT oracle ts n st tt).1.trace :=
  ((mono_all oracle ts n).1 st tt).2

theorem runSeq_trace_mono (n : Nat) (st : RSt) (lst : List String) :
    st.trace <+: (runSeq oracle ts n st lst).1.trace :=
  ((mono_all oracle ts n).2.1 st lst).2

theorem runPar_trace_mono (n : Nat) (st : RSt) (lst : List String)
    (errs : List RErr) :
    st.trace <+: (runPar oracle ts n st lst errs).1.trace :=
  ((mono_all oracle ts n).2.2 st lst errs).2

/-- A successful run of a task put its label into the trace: it was
executed. -/
theorem runT_ok_mem {n : Nat} {st st' : RSt} {tt : GTask}
    (h : runT oracle ts n st tt = (st', .ok ())) : tt.label ∈ st'.trace := by
  cases n with
  | zero => rw [runT_zero] at h; exact absurd h (by simp)
  | succ n =>
    by_cases hseen : tt.label ∈ st.seen
    · rw [runT_succ_seen oracle ts n hseen] at h; exact absurd h (by simp)
    · rcases hr : runDeps oracle ts n { st with seen := tt.label :: st.seen } tt with ⟨st2, res⟩
      cases res with
      | error e =>
        rw [runT_succ_deps_err oracle ts n hseen hr] at h
        exact absurd h (by simp)
      | ok u =>
        cases u
        rw [runT_succ_deps_ok oracle ts n hseen hr] at h
        unfold execTask at h
        have h1 : st' = { st2 with trace := st2.trace ++ [tt.label] } := by
          have := (Prod.mk.injEq _ _ _ _).mp h
          exact this.1.symm
        rw [h1]
        simp

/-- A successful sequential pass executed every listed dependency. -/
theorem runSeq_ok_mem {n : Nat} {st st' : RSt} {lst : List String}
    (h : runSeq oracle ts n st lst = (st', .ok ())) :
    ∀ lbl ∈ lst, lbl ∈ st'.trace := by
  induction lst generalizing st with
  | nil => intro lbl hl; exact absurd hl (by simp)
  | cons l0 rest ihl =>
    rcases hlk : goLookup ts l0 with _ | dep
    · rw [runSeq_cons_none oracle ts n st rest hlk] at h
      exact absurd h (by simp)
    · rcases hr : runT oracle ts n st dep with ⟨stA, r⟩
      cases r with
      | error e =>
        rw [runSeq_cons_err oracle ts n st rest hlk hr] at h
        exact absurd h (by simp)
      | ok u =>
        cases u
        rw [runSeq_cons_ok oracle ts n st rest hlk hr] at h
        intro lbl hl
        rcases List.mem_cons.mp hl with h' | h'
        · subst h'
          have hmem : dep.label ∈ stA.trace := runT_ok_mem oracle ts hr
          have hlbl : dep.label = lbl := (goLookup_mem ts hlk).2
          rw [← hlbl]
          have hpre : stA.trace <+: st'.trace := by
            have := runSeq_trace_mono oracle ts n stA rest
            rw [h] at this
            exact this
          exact hpre.subset hmem
        · exact ihl h lbl h'

/-- A successful parallel pass started with no collected errors. -/
theorem runPar_ok_errs {n : Nat} {st st' : RSt} {lst : List String}
    {errs : List RErr}
    (h : runPar oracle ts n st lst errs = (st', .ok ())) : errs = [] := by
  induction lst generalizing st errs with
  | nil =>
    cases errs with
    | nil => rfl
    | cons e es =>
      rw [runPar_nil_cons] at h
      exact absurd h (by simp)
  | cons l0 rest ihl =>
    rcases hlk : goLookup ts l0 with _ | dep
    · rw [runPar_cons_none oracle ts n st rest errs hlk] at h
      exact absurd h (by simp)
    · rcases hr : runT oracle ts n st dep with ⟨stA, r⟩
      cases r with
      | error e =>
        rw [runPar_cons_err oracle ts n st rest errs hlk hr] at h
        have := ihl h
        exact absurd this (by simp)
      | ok u =>
        cases u
        rw [runPar_cons_ok oracle ts n st rest errs hlk hr] at h
        exact ihl h

/-- A successful parallel pass executed every listed dependency. -/
theorem runPar_ok_mem {n : Nat} {st st' : RSt} {lst : List String}
    {errs : List RErr}
    (h : runPar oracle ts n st lst errs = (st', .ok ())) :
    ∀ lbl ∈ lst, lbl ∈ st'.trace := by
  induction lst generalizing st errs with
  | nil => intro lbl hl; exact absurd hl (by simp)
  | cons l0 rest ihl =>
    rcases hlk : goLookup ts l0 with _ | dep
    · rw [runPar_cons_none oracle ts n st rest errs hlk] at h
      exact absurd h (by simp)
    · rcases hr : runT oracle ts n st dep with ⟨stA, r⟩
      cases r with
      | error e =>
        rw [runPar_cons_err oracle ts n st rest errs hlk hr] at h
        have := runPar_ok_errs oracle ts h
        exact absurd this (by simp)
      | ok u =>
        cases u
        rw [runPar_cons_ok oracle ts n st rest errs hlk hr] at h
        intro lbl hl
        rcases List.mem_cons.mp hl with h' | h'
        · subst h'
          have hmem : dep.label ∈ stA.trace := runT_ok_mem oracle ts hr
          have hlbl : dep.label = lbl := (goLookup_mem ts hlk).2
          rw [← hlbl]
          have hpre : stA.trace <+: st'.trace := by
            have := runPar_trace_mono oracle ts n stA rest errs
            rw [h] at this
            exact this
          exact hpre.subset hmem
        · exact ihl h lbl h'

/-- A successful sequential pass contains, for every listed label, a
successful sub-run of the looked-up task from a state whose visited set
extends the initial one. -/
theorem runSeq_ok_sub {n : Nat} {st st' : RSt} {lst : List String}
    (h : runSeq oracle ts n st lst = (st', .ok ())) :
    ∀ lbl ∈ lst, ∃ dep stA stB, goLookup ts lbl = some dep ∧
      runT oracle ts n stA dep = (stB, .ok ()) ∧ st.seen ⊆ stA.seen := by
  induction lst generalizing st with
  | nil => intro lbl hl; exact absurd hl (by simp)
  | cons l0 rest ihl =>
    rcases hlk : goLookup ts l0 with _ | dep
    · rw [runSeq_cons_none oracle ts n st rest hlk] at h
      exact absurd h (by simp)
    · rcases hr : runT oracle ts n st dep with ⟨stA, r⟩
      cases r with
      | error e =>
        rw [runSeq_cons_err oracle ts n st rest hlk hr] at h
        exact absurd h (by simp)
      | ok u =>
        cases u
        rw [runSeq_cons_ok oracle ts n st rest hlk hr] at h
        intro lbl hl
        rcases List.mem_cons.mp hl with h' | h'
        · subst h'
          exact ⟨dep, st, stA, hlk, hr, fun _ hx => hx⟩
        · rcases ihl h lbl h' with ⟨dep', stA', stB', hlk', hr', hsub'⟩
          refine ⟨dep', stA', stB', hlk', hr', fun x hx => hsub' ?_⟩
          have := runT_seen_mono oracle ts n st dep
          rw [hr] at this
          exact this hx

/-- Same for a successful parallel pass. -/
theorem runPar_ok_sub {n : Nat} {st st' : RSt} {lst : List String}
    {errs : List RErr}
    (h : runPar oracle ts n st lst errs = (st', .ok ())) :
    ∀ lbl ∈ lst, ∃ dep stA stB, goLookup ts lbl = some dep ∧
      runT oracle ts n stA dep = (stB, .ok ()) ∧ st.seen ⊆ stA.seen := by
  induction lst generalizing st errs with
  | nil => intro lbl hl; exact absurd hl (by simp)
  | cons l0 rest ihl =>
    rcases hlk : goLookup ts l0 with _ | dep
    · rw [runPar_cons_none oracle ts n st rest errs hlk] at h
      exact absurd h (by simp)
    · rcases hr : runT oracle ts n st dep with ⟨stA, r⟩
      cases r with
      | error e =>
        rw [runPar_cons_err oracle ts n st rest errs hlk hr] at h
        have := runPar_ok_errs oracle ts h
        exact absurd this (by simp)
      | ok u =>
        cases u
        rw [runPar_cons_ok oracle ts n st rest errs hlk hr] at h
        intro lbl hl
        rcases List.mem_cons.mp hl with h' | h'
        · subst h'
          exact ⟨dep, st, stA, hlk, hr, fun _ hx => hx⟩
        · rcases ihl h lbl h' with ⟨dep', stA', stB', hlk', hr', hsub'⟩
          refine ⟨dep', stA', stB', hlk', hr', fun x hx => hsub' ?_⟩
          have := runT_seen_mono oracle ts n st dep
          rw [hr] at this
          exact this hx

/-- Error classification: with every dependency label resolvable, an
all-success process oracle and fuel at least the number of unvisited index
labels plus two, the only error a run can produce is a cycle error (in
particular, the fuel marker is unreachable: the recursion terminates). -/
theorem runT_err_cycle
    (hwf : ∀ t ∈ ts, ∀ l ∈ t.dependsOn, (goLookup ts l).isSome)
    (ho : ∀ l, oracle l = true) :
    ∀ n : Nat, ∀ st : RSt, ∀ tt : GTask, tt ∈ ts →
      Mcount ts st.seen + 2 ≤ n →
      ∀ e, (runT oracle ts n st tt).2 = .error e → ∃ l, e = .cycle l := by
  intro n
  induction n using Nat.strong_induction_on with
  | _ n IH =>
    intro st tt hmem hfuel e herr
    cases n with
    | zero => omega
    | succ m =>
      by_cases hseen : tt.label ∈ st.seen
      · rw [runT_succ_seen oracle ts m hseen] at herr
        simp at herr
        exact ⟨tt.label, herr.symm⟩
      · have hm1 : Mcount ts (tt.label :: st.seen) < Mcount ts st.seen :=
          Mcount_lt ts hmem hseen
        have hfm : Mcount ts ({ st with seen := tt.label :: st.seen } : RSt).seen + 2 ≤ m := by
          simp only []
          omega
        have hseq : ∀ lst : List String, ∀ st' : RSt,
            (∀ l ∈ lst, (goLookup ts l).isSome) →
            Mcount ts st'.seen + 2 ≤ m →
            ∀ e', (runSeq oracle ts m st' lst).2 = .error e' → ∃ l, e' = .cycle l := by
          intro lst
          induction lst with
          | nil =>
            intro st' _ _ e' h'
            rw [runSeq_nil] at h'
            simp at h'
          | cons l0 rest ihl =>
            intro st' hwl hf e' h'
            have hl0 : (goLookup ts l0).isSome := hwl l0 (List.mem_cons_self _ _)
            rcases hlk : goLookup ts l0 with _ | dep
            · rw [hlk] at hl0; simp at hl0
            · have hdm : dep ∈ ts := (goLookup_mem ts hlk).1
              rcases hrt : runT oracle ts m st' dep with ⟨stA, r⟩
              cases r with
              | error e3 =>
                rw [runSeq_cons_err oracle ts m st' rest hlk hrt] at h'
                have h'' : e3 = e' := by simpa using h'
                subst h''
                exact IH m (Nat.lt_succ_self m) st' dep hdm hf e3
                  (by rw [hrt])
              | ok u =>
                cases u
                rw [runSeq_cons_ok oracle ts m st' rest hlk hrt] at h'
                have hsub : st'.seen ⊆ stA.seen := by
                  have := runT_seen_mono oracle ts m st' dep
                  rw [hrt] at this
                  exact this
                exact ihl stA (fun l hl => hwl l (List.mem_cons_of_mem _ hl))
                  (le_trans (by have := Mcount_anti ts hsub; omega) hf) e' h'
        have hpar : ∀ lst : List String, ∀ st' : RSt, ∀ errs : List RErr,
            (∀ l ∈ lst, (goLookup ts l).isSome) →
            Mcount ts st'.seen + 2 ≤ m →
            (∀ er ∈ errs, ∃ l, er = .cycle l) →
            ∀ e', (runPar oracle ts m st' lst errs).2 = .error e' → ∃ l, e' = .cycle l := by
          intro lst
          induction lst with
          | nil =>
            intro st' errs _ _ herrs e' h'
            cases errs with
            | nil => rw [runPar_nil_nil] at h'; simp at h'
            | cons e0 es =>
              rw [runPar_nil_cons] at h'
              have h'' : e0 = e' := by simpa using h'
              subst h''
              exact herrs e0 (List.mem_cons_self _ _)
          | cons l0 rest ihl =>
            intro st' errs hwl hf herrs e' h'
            have hl0 : (goLookup ts l0).isSome := hwl l0 (List.mem_cons_self _ _)
            rcases hlk : goLookup ts l0 with _ | dep
            · rw [hlk] at hl0; simp at hl0
            · have hdm : dep ∈ ts := (goLookup_mem ts hlk).1
              rcases hrt : runT oracle ts m st' dep with ⟨stA, r⟩
              have hsub : st'.seen ⊆ stA.seen := by
                have := runT_seen_mono oracle ts m st' dep
                rw [hrt] at this
                exact this
              have hfA : Mcount ts stA.seen + 2 ≤ m :=
                le_trans (by have := Mcount_anti ts hsub; omega) hf
              cases r with
              | error e3 =>
                rw [runPar_cons_err oracle ts m st' rest errs hlk hrt] at h'
                have he3 : ∃ l, e3 = .cycle l :=
                  IH m (Nat.lt_succ_self m) st' dep hdm hf e3 (by rw [hrt])
                refine ihl stA (errs ++ [e3])
                  (fun l hl => hwl l (List.mem_cons_of_mem _ hl)) hfA ?_ e' h'
                intro er her
                rcases List.mem_append.mp her with hh | hh
                · exact herrs er hh
                · rw [List.mem_singleton.mp hh]
                  exact he3
              | ok u =>
                cases u
                rw [runPar_cons_ok oracle ts m st' rest errs hlk hrt] at h'
                exact ihl stA errs (fun l hl => hwl l (List.mem_cons_of_mem _ hl))
                  hfA herrs e' h'
        rcases hr : runDeps oracle ts m { st with seen := tt.label :: st.seen } tt with ⟨st2, res⟩
        cases res with
        | ok u =>
          cases u
          rw [runT_succ_deps_ok oracle ts m hseen hr] at herr
          unfold execTask at herr
          rw [ho tt.label] at herr
          simp at herr
        | error e2 =>
          rw [runT_succ_deps_err oracle ts m hseen hr] at herr
          simp at herr
          subst herr
          have hwl : ∀ l ∈ tt.dependsOn, (goLookup ts l).isSome := hwf tt hmem
          unfold runDeps at hr
          by_cases h0 : tt.dependsOn = []
          · rw [if_pos h0] at hr
            exact absurd hr (by simp)
          · rw [if_neg h0] at hr
            by_cases h1 : goToLower tt.dependsOrder = "sequence"
            · rw [if_pos h1] at hr
              exact hseq tt.dependsOn _ hwl hfm e2 (by rw [hr])
            · rw [if_neg h1] at hr
              exact hpar tt.dependsOn _ [] hwl hfm (by simp) e2 (by rw [hr])

/-- A successful run of a task contains, for each of its dependency labels,
a successful sub-run of the looked-up dependency from a state whose visited
set contains the task's own label. -/
theorem runT_ok_deps {n : Nat} {st st' : RSt} {tt : GTask}
    (h : runT oracle ts n st tt = (st', .ok ())) :
    ∀ b ∈ tt.dependsOn, ∃ tb m stA stB, goLookup ts b = some tb ∧
      runT oracle ts m stA tb = (stB, .ok ()) ∧ tt.label ∈ stA.seen ∧
      st.seen ⊆ stA.seen := by
  cases n with
  | zero => rw [runT_zero] at h; exact absurd h (by simp)
  | succ m =>
    by_cases hseen : tt.label ∈ st.seen
    · rw [runT_succ_seen oracle ts m hseen] at h; exact absurd h (by simp)
    · rcases hr : runDeps oracle ts m { st with seen := tt.label :: st.seen } tt with ⟨st2, res⟩
      cases res with
      | error e =>
        rw [runT_succ_deps_err oracle ts m hseen hr] at h
        exact absurd h (by simp)
      | ok u =>
        cases u
        intro b hb
        have hne : tt.dependsOn ≠ [] := by
          intro h0
          rw [h0] at hb
          exact absurd hb (by simp)
        unfold runDeps at hr
        rw [if_neg hne] at hr
        by_cases h1 : goToLower tt.dependsOrder = "sequence"
        · rw [if_pos h1] at hr
          rcases runSeq_ok_sub oracle ts hr b hb with ⟨tb, stA, stB, hlk, hok, hsub⟩
          exact ⟨tb, m, stA, stB, hlk, hok,
            hsub (List.mem_cons_self _ _),
            fun x hx => hsub (List.mem_cons_of_mem _ hx)⟩
        · rw [if_neg h1] at hr
          rcases runPar_ok_sub oracle ts hr b hb with ⟨tb, stA, stB, hlk, hok, hsub⟩
          exact ⟨tb, m, stA, stB, hlk, hok,
            hsub (List.mem_cons_self _ _),
            fun x hx => hsub (List.mem_cons_of_mem _ hx)⟩

/-- One edge of the dependency graph: `a`'s task (by index lookup) lists
`b` as a dependency. -/
def depStep (ts : List GTask) (a b : String) : Prop :=
  ∃ t, goLookup ts a = some t ∧ b ∈ t.dependsOn

/-- If a task's label transitively depends on label `b`, then any
successful run of that task contains a successful run of `b`'s task from a
state whose visited set already contains the original label. -/
theorem runT_ok_reach {b : String} :
    ∀ {a : String}, Relation.TransGen (depStep ts) a b →
    ∀ {ta : GTask} {n : Nat} {st st' : RSt}, goLookup ts a = some ta →
      runT oracle ts n st ta = (st', .ok ()) →
      ∃ tb m stA stB, goLookup ts b = some tb ∧
        runT oracle ts m stA tb = (stB, .ok ()) ∧ a ∈ stA.seen ∧
        st.seen ⊆ stA.seen := by
  intro a htg
  induction htg using Relation.TransGen.head_induction_on with
  | base hstep =>
    intro ta n st st' hlk hok
    rcases hstep with ⟨t0, hlk0, hb⟩
    rw [hlk] at hlk0
    have ht0 : t0 = ta := by
      have := (Option.some.injEq _ _).mp hlk0
      exact this.symm
    subst ht0
    rcases runT_ok_deps oracle ts hok b hb with ⟨tb, m, stA, stB, hlkb, hokb, hmem, hsub⟩
    have hlbl : t0.label = _ := (goLookup_mem ts hlk).2
    exact ⟨tb, m, stA, stB, hlkb, hokb, hlbl ▸ hmem, hsub⟩
  | ih hstep htg' IH =>
    intro ta n st st' hlk hok
    rename_i a' c
    rcases hstep with ⟨t0, hlk0, hc⟩
    rw [hlk] at hlk0
    have ht0 : t0 = ta := by
      have := (Option.some.injEq _ _).mp hlk0
      exact this.symm
    subst ht0
    rcases runT_ok_deps oracle ts hok c hc with ⟨tc, m, stA, stB, hlkc, hokc, hmem, hsub⟩
    rcases IH hlkc hokc with ⟨tb, m', stA', stB', hlkb, hokb, _, hsub'⟩
    have hlbl : t0.label = a' := (goLookup_mem ts hlk).2
    exact ⟨tb, m', stA', stB', hlkb, hokb,
      hsub' (hlbl ▸ hmem), fun x hx => hsub' (hsub hx)⟩

/-- A task whose label lies on a dependency cycle never runs to success:
re-entering its own label is caught by the visited set. -/
theorem runT_cycle_no_ok {z : String} {tz : GTask}
    (hlk : goLookup ts z = some tz)
    (hcyc : Relation.TransGen (depStep ts) z z) :
    ∀ (n : Nat) (st : RSt), (runT oracle ts n st tz).2 ≠ .ok () := by
  intro n st hok
  rcases hre : runT oracle ts n st tz with ⟨st', r⟩
  rw [hre] at hok
  simp only [] at hok
  cases r with
  | error e => exact absurd hok (by simp)
  | ok u =>
    cases u
    rcases runT_ok_reach oracle ts hcyc hlk hre with
      ⟨tb, m, stA, stB, hlkb, hokb, hmem, _⟩
    rw [hlk] at hlkb
    have htb : tb = tz := by
      have := (Option.some.injEq _ _).mp hlkb
      exact this.symm
    subst htb
    have hz : tb.label = z := (goLookup_mem ts hlk).2
    cases m with
    | zero => rw [runT_zero] at hokb; exact absurd hokb (by simp)
    | succ m' =>
      rw [runT_succ_seen oracle ts m' (hz ▸ hmem)] at hokb
      exact absurd hokb (by simp)

/-! ### Step equations for the top-level loops -/

theorem topSeq_nil (n : Nat) (st : RSt) :
    topSeq oracle ts n st [] = (st, .ok ()) := by
  rw [topSeq]

theorem topSeq_cons_none {lbl : String} (n : Nat) (st : RSt)
    (rest : List String) (hlk : goLookup ts lbl = none) :
    topSeq oracle ts n st (lbl :: rest) = (st, .error (.notFound lbl)) := by
  simp only [topSeq, hlk]

theorem topSeq_cons_err {lbl : String} {dep : GTask} {st' : RSt} {e : RErr}
    (n : Nat) (st : RSt) (rest : List String)
    (hlk : goLookup ts lbl = some dep)
    (hr : runSingleTaskWithDepsM oracle ts n st.trace dep = (st', .error e)) :
    topSeq oracle ts n st (lbl :: rest) = (st', .error (.depFailed lbl e)) := by
  simp only [topSeq, hlk, hr]

theorem topSeq_cons_ok {lbl : String} {dep : GTask} {st' : RSt}
    (n : Nat) (st : RSt) (rest : List String)
    (hlk : goLookup ts lbl = some dep)
    (hr : runSingleTaskWithDepsM oracle ts n st.trace dep = (st', .ok ())) :
    topSeq oracle ts n st (lbl :: rest) = topSeq oracle ts n st' rest := by
  simp only [topSeq, hlk, hr]

theorem topPar_nil_nil (n : Nat) (st : RSt) :
    topPar oracle ts n st [] [] = (st, .ok ()) := by
  simp only [topPar]

theorem topPar_nil_cons (n : Nat) (st : RSt) (e : RErr) (es : List RErr) :
    topPar oracle ts n st [] (e :: es) = (st, .error e) := by
  simp only [topPar]

theorem topPar_cons_none {lbl : String} (n : Nat) (st : RSt)
    (rest : List String) (errs : List RErr) (hlk : goLookup ts lbl = none) :
    topPar oracle ts n st (lbl :: rest) errs = (st, .error (.notFound lbl)) := by
  simp only [topPar, hlk]

theorem topPar_cons_err {lbl : String} {dep : GTask} {st' : RSt} {e : RErr}
    (n : Nat) (st : RSt) (rest : List String) (errs : List RErr)
    (hlk : goLookup ts lbl = some dep)
    (hr : runSingleTaskWithDepsM oracle ts n st.trace dep = (st', .error e)) :
    topPar oracle ts n st (lbl :: rest) errs =
      topPar oracle ts n st' rest (errs ++ [.depFailed lbl e]) := by
  simp only [topPar, hlk, hr]

theorem topPar_cons_ok {lbl : String} {dep : GTask} {st' : RSt}
    (n : Nat) (st : RSt) (rest : List String) (errs : List RErr)
    (hlk : goLookup ts lbl = some dep)
    (hr : runSingleTaskWithDepsM oracle ts n st.trace dep = (st', .ok ())) :
    topPar oracle ts n st (lbl :: rest) errs =
      topPar oracle ts n st' rest errs := by
  simp only [topPar, hlk, hr]

theorem RunTaskModel_noDeps {root : GTask} (n : Nat)
    (h0 : root.dependsOn = []) :
    RunTaskModel oracle ts n root = execTask oracle ⟨[], []⟩ root := by
  simp [RunTaskModel, h0]

theorem RunTaskModel_seq_err {root : GTask} {st : RSt} {e : RErr} (n : Nat)
    (h0 : root.dependsOn ≠ []) (h1 : goToLower root.dependsOrder = "sequence")
    (hr : topSeq oracle ts n ⟨[], []⟩ root.dependsOn = (st, .error e)) :
    RunTaskModel oracle ts n root = (st, .error e) := by
  simp [RunTaskModel, h0, h1, hr]

theorem RunTaskModel_seq_ok {root : GTask} {st : RSt} (n : Nat)
    (h0 : root.dependsOn ≠ []) (h1 : goToLower root.dependsOrder = "sequence")
    (hr : topSeq oracle ts n ⟨[], []⟩ root.dependsOn = (st, .ok ())) :
    RunTaskModel oracle ts n root = execTask oracle st root := by
  simp [RunTaskModel, h0, h1, hr]

theorem RunTaskModel_par_err {root : GTask} {st : RSt} {e : RErr} (n : Nat)
    (h0 : root.dependsOn ≠ []) (h1 : ¬goToLower root.dependsOrder = "sequence")
    (hr : topPar oracle ts n ⟨[], []⟩ root.dependsOn [] = (st, .error e)) :
    RunTaskModel oracle ts n root = (st, .error e) := by
  simp [RunTaskModel, h0, h1, hr]

theorem RunTaskModel_par_ok {root : GTask} {st : RSt} (n : Nat)
    (h0 : root.dependsOn ≠ []) (h1 : ¬goToLower root.dependsOrder = "sequence")
    (hr : topPar oracle ts n ⟨[], []⟩ root.dependsOn [] = (st, .ok ())) :
    RunTaskModel oracle ts n root = execTask oracle st root := by
  simp [RunTaskModel, h0, h1, hr]

/-! ### A cycle among the dependencies forces a wrapped cycle error -/

theorem topSeq_cyc
    (hwf : ∀ t ∈ ts, ∀ l ∈ t.dependsOn, (goLookup ts l).isSome)
    (ho : ∀ l, oracle l = true) {n : Nat}
    (hfuel : Mcount ts [] + 2 ≤ n) :
    ∀ (lst : List String) (st : RSt),
      (∀ l ∈ lst, (goLookup ts l).isSome) →
      (∃ c ∈ lst, ∃ tc, goLookup ts c = some tc ∧
        ∀ (m : Nat) (stX : RSt), (runT oracle ts m stX tc).2 ≠ .ok ()) →
      ∃ d x, (topSeq oracle ts n st lst).2 = .error (.depFailed d (.cycle x)) := by
  intro lst
  induction lst with
  | nil =>
    intro st _ hc
    rcases hc with ⟨c, hcm, _⟩
    exact absurd hcm (by simp)
  | cons l0 rest ihl =>
    intro st hwl hc
    have hl0 : (goLookup ts l0).isSome := hwl l0 (List.mem_cons_self _ _)
    rcases hlk : goLookup ts l0 with _ | dep
    · rw [hlk] at hl0; simp at hl0
    · have hdm : dep ∈ ts := (goLookup_mem ts hlk).1
      rcases hrt : runSingleTaskWithDepsM oracle ts n st.trace dep with ⟨stA, r⟩
      cases r with
      | error e =>
        have he : ∃ l, e = .cycle l := by
          refine runT_err_cycle oracle ts hwf ho n ⟨[], st.trace⟩ dep hdm ?_ e ?_
          · exact hfuel
          · unfold runSingleTaskWithDepsM at hrt
            rw [hrt]
        rcases he with ⟨x, hx⟩
        subst hx
        rw [topSeq_cons_err oracle ts n st rest hlk hrt]
        exact ⟨l0, x, rfl⟩
      | ok u =>
        cases u
        rw [topSeq_cons_ok oracle ts n st rest hlk hrt]
        rcases hc with ⟨c, hcm, tc, hlkc, hnos⟩
        rcases List.mem_cons.mp hcm with hh | hh
        · subst hh
          rw [hlk] at hlkc
          have : tc = dep := by
            have := (Option.some.injEq _ _).mp hlkc
            exact this.symm
          subst this
          exact absurd (by unfold runSingleTaskWithDepsM at hrt; rw [hrt]) (hnos n ⟨[], st.trace⟩)
        · exact ihl stA (fun l hl => hwl l (List.mem_cons_of_mem _ hl))
            ⟨c, hh, tc, hlkc, hnos⟩

theorem topPar_cyc
    (hwf : ∀ t ∈ ts, ∀ l ∈ t.dependsOn, (goLookup ts l).isSome)
    (ho : ∀ l, oracle l = true) {n : Nat}
    (hfuel : Mcount ts [] + 2 ≤ n) :
    ∀ (lst : List String) (st : RSt) (errs : List RErr),
      (∀ l ∈ lst, (goLookup ts l).isSome) →
      (∀ er ∈ errs, ∃ d x, er = .depFailed d (.cycle x)) →
      ((∃ c ∈ lst, ∃ tc, goLookup ts c = some tc ∧
        ∀ (m : Nat) (stX : RSt), (runT oracle ts m stX tc).2 ≠ .ok ()) ∨ errs ≠ []) →
      ∃ d x, (topPar oracle ts n st lst errs).2 = .error (.depFailed d (.cycle x)) := by
  intro lst
  induction lst with
  | nil =>
    intro st errs _ herrs hc
    rcases hc with hc | hc
    · rcases hc with ⟨c, hcm, _⟩
      exact absurd hcm (by simp)
    · cases errs with
      | nil => exact absurd rfl hc
      | cons e0 es =>
        rw [topPar_nil_cons]
        rcases herrs e0 (List.mem_cons_self _ _) with ⟨d, x, hdx⟩
        exact ⟨d, x, by rw [hdx]⟩
  | cons l0 rest ihl =>
    intro st errs hwl herrs hc
    have hl0 : (goLookup ts l0).isSome := hwl l0 (List.mem_cons_self _ _)
    rcases hlk : goLookup ts l0 with _ | dep
    · rw [hlk] at hl0; simp at hl0
    · have hdm : dep ∈ ts := (goLookup_mem ts hlk).1
      rcases hrt : runSingleTaskWithDepsM oracle ts n st.trace dep with ⟨stA, r⟩
      cases r with
      | error e =>
        have he : ∃ l, e = .cycle l := by
          refine runT_err_cycle oracle ts hwf ho n ⟨[], st.trace⟩ dep hdm hfuel e ?_
          unfold runSingleTaskWithDepsM at hrt
          rw [hrt]
        rcases he with ⟨x, hx⟩
        subst hx
        rw [topPar_cons_err oracle ts n st rest errs hlk hrt]
        refine ihl stA (errs ++ [.depFailed l0 (.cycle x)])
          (fun l hl => hwl l (List.mem_cons_of_mem _ hl)) ?_ (Or.inr (by simp))
        intro er her
        rcases List.mem_append.mp her with hh | hh
        · exact herrs er hh
        · rw [List.mem_singleton.mp hh]
          exact ⟨l0, x, rfl⟩
      | ok u =>
        cases u
        rw [topPar_cons_ok oracle ts n st rest errs hlk hrt]
        rcases hc with hc | hc
        · rcases hc with ⟨c, hcm, tc, hlkc, hnos⟩
          rcases List.mem_cons.mp hcm with hh | hh
          · subst hh
            rw [hlk] at hlkc
            have : tc = dep := by
              have := (Option.some.injEq _ _).mp hlkc
              exact this.symm
            subst this
            exact absurd (by unfold runSingleTaskWithDepsM at hrt; rw [hrt])
              (hnos n ⟨[], st.trace⟩)
          · exact ihl stA errs (fun l hl => hwl l (List.mem_cons_of_mem _ hl))
              herrs (Or.inl ⟨c, hh, tc, hlkc, hnos⟩)
        · exact ihl stA errs (fun l hl => hwl l (List.mem_cons_of_mem _ hl))
            herrs (Or.inr hc)

end Orchestrator

/-! ## Claim theorems: dependency orchestration -/

/-- C2. For every task graph in which some label depends directly or
transitively on itself, running a task of the cycle terminates and returns
a cycle-detected error naming a (re-entered) label, wrapped with the label
of the failing direct dependency; the cycle is never silently skipped.
Formally: for a well-formed index (every dependency label resolvable), a
root task that transitively depends on its own label, an all-success
process oracle, and ANY fuel of at least `ts.length + 2`, the model of
`RunTask` returns `dependency d failed: cycle detected at x` — in
particular the recursion has terminated (the fuel-exhaustion marker never
appears) and no success is reported. Parallel branches are linearised as
described in the module header. -/
theorem c2_cycle_detected (ts : List GTask) (root : GTask) (n : Nat)
    (hwf : ∀ t ∈ ts, ∀ l ∈ t.dependsOn, (goLookup ts l).isSome)
    (hroot : goLookup ts root.label = some root)
    (hcyc : Relation.TransGen (depStep ts) root.label root.label)
    (hn : ts.length + 2 ≤ n) :
    ∃ d x, (RunTaskModel (fun _ => true) ts n root).2 =
      .error (.depFailed d (.cycle x)) := by
  have ho : ∀ l : String, (fun _ : String => true) l = true := fun _ => rfl
  have hroot_mem : root ∈ ts := (goLookup_mem ts hroot).1
  have hfuel : Mcount ts [] + 2 ≤ n := by
    have := Mcount_le_card ts ([] : List String)
    omega
  rcases Relation.TransGen.head'_iff.mp hcyc with ⟨c, hstep, hrtg⟩
  rcases hstep with ⟨t0, hlk0, hcdep⟩
  rw [hroot] at hlk0
  have ht0 : t0 = root := ((Option.some.injEq _ _).mp hlk0).symm
  rw [ht0] at hcdep
  have hne : root.dependsOn ≠ [] := by
    intro h0
    rw [h0] at hcdep
    exact absurd hcdep (by simp)
  have hcc : Relation.TransGen (depStep ts) c c :=
    Relation.TransGen.tail' hrtg ⟨root, hroot, hcdep⟩
  have hcl : (goLookup ts c).isSome := hwf root hroot_mem c hcdep
  rcases hlkc : goLookup ts c with _ | tc
  · rw [hlkc] at hcl; simp at hcl
  · have hnos := runT_cycle_no_ok (fun _ => true) ts hlkc hcc
    by_cases h1 : goToLower root.dependsOrder = "sequence"
    · rcases topSeq_cyc (fun _ => true) ts hwf ho hfuel root.dependsOn ⟨[], []⟩
        (hwf root hroot_mem) ⟨c, hcdep, tc, hlkc, hnos⟩ with ⟨d, x, hres⟩
      rcases hts : topSeq (fun _ => true) ts n ⟨[], []⟩ root.dependsOn with ⟨stF, rF⟩
      rw [hts] at hres
      have hrF : rF = .error (.depFailed d (.cycle x)) := hres
      subst hrF
      exact ⟨d, x, by rw [RunTaskModel_seq_err (fun _ => true) ts n hne h1 hts]⟩
    · rcases topPar_cyc (fun _ => true) ts hwf ho hfuel root.dependsOn ⟨[], []⟩ []
        (hwf root hroot_mem) (by simp) (Or.inl ⟨c, hcdep, tc, hlkc, hnos⟩) with ⟨d, x, hres⟩
      rcases hts : topPar (fun _ => true) ts n ⟨[], []⟩ root.dependsOn [] with ⟨stF, rF⟩
      rw [hts] at hres
      have hrF : rF = .error (.depFailed d (.cycle x)) := hres
      subst hrF
      exact ⟨d, x, by rw [RunTaskModel_par_err (fun _ => true) ts n hne h1 hts]⟩

/-- The two-task cycle `A dependsOn B`, `B dependsOn A` used as witness. -/
def cycTaskA : GTask := ⟨"A", ["B"], ""⟩

def cycTaskB : GTask := ⟨"B", ["A"], ""⟩

def cycTasks : List GTask := [cycTaskA, cycTaskB]

theorem c2_cycle_detected_witness :
    ∃ d x, (RunTaskModel (fun _ => true) cycTasks 4 cycTaskA).2 =
      .error (.depFailed d (.cycle x)) :=
  c2_cycle_detected cycTasks cycTaskA 4
    (by decide)
    (by decide)
    (Relation.TransGen.head
      (show depStep cycTasks cycTaskA.label "B" from ⟨cycTaskA, by decide, by decide⟩)
      (Relation.TransGen.single
        (show depStep cycTasks "B" cycTaskA.label from ⟨cycTaskB, by decide, by decide⟩)))
    (by decide)

/-! ## Claim C3: depth-first dependency execution (trace ordering) -/

/-- The dependency labels of the task registered under a label (empty when
the label is not in the index). -/
def depsOfLabel (ts : List GTask) (l : String) : List String :=
  match goLookup ts l with
  | some t => t.dependsOn
  | none => []

/-- The trace invariant: whenever a label was executed, every dependency of
its (index-registered) task had already been executed earlier. -/
def GoodTrace (ts : List GTask) (tr : List String) : Prop :=
  ∀ i, i < tr.length → ∀ d ∈ depsOfLabel ts (tr.getD i ""),
    ∃ j, j < i ∧ tr.getD j "" = d

theorem GoodTrace_nil (ts : List GTask) : GoodTrace ts [] := by
  intro i hi
  simp at hi

theorem GoodTrace_append {ts : List GTask} {tr : List String}
    (h : GoodTrace ts tr) (x : String)
    (hx : ∀ d ∈ depsOfLabel ts x, d ∈ tr) : GoodTrace ts (tr ++ [x]) := by
  intro i hi d hd
  have hlen : (tr ++ [x]).length = tr.length + 1 := by simp
  by_cases hlt : i < tr.length
  · rw [List.getD_append _ _ _ _ hlt] at hd
    rcases h i hlt d hd with ⟨j, hj, hjd⟩
    exact ⟨j, hj, by rw [List.getD_append _ _ _ _ (lt_trans hj hlt)]; exact hjd⟩
  · have hieq : i = tr.length := by omega
    subst hieq
    rw [List.getD_append_right _ _ _ _ (le_refl _)] at hd
    simp at hd
    have hmem : d ∈ tr := hx d hd
    rcases List.get_of_mem hmem with ⟨⟨j, hjlt⟩, hget⟩
    refine ⟨j, hjlt, ?_⟩
    rw [List.getD_append _ _ _ _ hjlt, List.getD_eq_get _ _ hjlt]
    exact hget

section TracePres

variable (oracle : String → Bool) (ts : List GTask)

/-- The trace invariant is preserved through every run (the task executed
at each append has all its dependencies already in the trace). -/
theorem gt_pres : ∀ n : Nat,
    (∀ st tt, tt ∈ ts → goLookup ts tt.label = some tt →
      GoodTrace ts st.trace → GoodTrace ts (runT oracle ts n st tt).1.trace)
  ∧ (∀ st lst, GoodTrace ts st.trace →
      GoodTrace ts (runSeq oracle ts n st lst).1.trace)
  ∧ (∀ st lst errs, GoodTrace ts st.trace →
      GoodTrace ts (runPar oracle ts n st lst errs).1.trace) := by
  intro n
  induction n with
  | zero =>
    refine ⟨fun st tt _ _ hgt => ?_, fun st lst hgt => ?_, fun st lst errs hgt => ?_⟩
    · rw [runT_zero]; exact hgt
    · cases lst with
      | nil => rw [runSeq_nil]; exact hgt
      | cons lbl rest =>
        rcases hlk : goLookup ts lbl with _ | dep
        · rw [runSeq_cons_none oracle ts 0 st rest hlk]; exact hgt
        · rw [runSeq_cons_err oracle ts 0 st rest hlk (runT_zero oracle ts st dep)]
          exact hgt
    · induction lst generalizing st errs with
      | nil =>
        cases errs with
        | nil => rw [runPar_nil_nil]; exact hgt
        | cons e es => rw [runPar_nil_cons]; exact hgt
      | cons lbl rest ihl =>
        rcases hlk : goLookup ts lbl with _ | dep
        · rw [runPar_cons_none oracle ts 0 st rest errs hlk]; exact hgt
        · rw [runPar_cons_err oracle ts 0 st rest errs hlk (runT_zero oracle ts st dep)]
          exact ihl st (errs ++ [.fuelOut]) hgt
  | succ n ih =>
    obtain ⟨ihT, ihS, ihP⟩ := ih
    have hT : ∀ st tt, tt ∈ ts → goLookup ts tt.label = some tt →
        GoodTrace ts st.trace →
        GoodTrace ts (runT oracle ts (n + 1) st tt).1.trace := by
      intro st tt hmem hcan hgt
      by_cases hseen : tt.label ∈ st.seen
      · rw [runT_succ_seen oracle ts n hseen]; exact hgt
      · rcases hr : runDeps oracle ts n { st with seen := tt.label :: st.seen } tt with ⟨st2, res⟩
        have hgt2 : GoodTrace ts st2.trace := by
          have hgt1 : GoodTrace ts ({ st with seen := tt.label :: st.seen } : RSt).trace := hgt
          unfold runDeps at hr
          by_cases h0 : tt.dependsOn = []
          · rw [if_pos h0] at hr
            have : st2 = { st with seen := tt.label :: st.seen } := by
              have := (Prod.mk.injEq _ _ _ _).mp hr.symm
              exact this.1
            rw [this]
            exact hgt1
          · rw [if_neg h0] at hr
            by_cases h1 : goToLower tt.dependsOrder = "sequence"
            · rw [if_pos h1] at hr
              have := ihS { st with seen := tt.label :: st.seen } tt.dependsOn hgt1
              rw [hr] at this
              exact this
            · rw [if_neg h1] at hr
              have := ihP { st with seen := tt.label :: st.seen } tt.dependsOn [] hgt1
              rw [hr] at this
              exact this
        cases res with
        | error e =>
          rw [runT_succ_deps_err oracle ts n hseen hr]
          exact hgt2
        | ok u =>
          cases u
          rw [runT_succ_deps_ok oracle ts n hseen hr]
          unfold execTask
          refine GoodTrace_append hgt2 tt.label ?_
          intro d hd
          simp only [depsOfLabel, hcan] at hd
          unfold runDeps at hr
          by_cases h0 : tt.dependsOn = []
          · rw [h0] at hd
            exact absurd hd (by simp)
          · rw [if_neg h0] at hr
            by_cases h1 : goToLower tt.dependsOrder = "sequence"
            · rw [if_pos h1] at hr
              exact runSeq_ok_mem oracle ts hr d hd
            · rw [if_neg h1] at hr
              exact runPar_ok_mem oracle ts hr d hd
    refine ⟨hT, fun st lst => ?_, fun st lst errs => ?_⟩
    · induction lst generalizing st with
      | nil => intro hgt; rw [runSeq_nil]; exact hgt
      | cons lbl rest ihl =>
        intro hgt
        rcases hlk : goLookup ts lbl with _ | dep
        · rw [runSeq_cons_none oracle ts (n + 1) st rest hlk]; exact hgt
        · have hdm : dep ∈ ts := (goLookup_mem ts hlk).1
          have hcan : goLookup ts dep.label = some dep := by
            rw [(goLookup_mem ts hlk).2]; exact hlk
          have hgtA := hT st dep hdm hcan hgt
          rcases hr : runT oracle ts (n + 1) st dep with ⟨stA, r⟩
          rw [hr] at hgtA
          cases r with
          | error e =>
            rw [runSeq_cons_err oracle ts (n + 1) st rest hlk hr]
            exact hgtA
          | ok u =>
            cases u
            rw [runSeq_cons_ok oracle ts (n + 1) st rest hlk hr]
            exact ihl stA hgtA
    · induction lst generalizing st errs with
      | nil =>
        intro hgt
        cases errs with
        | nil => rw [runPar_nil_nil]; exact hgt
        | cons e es => rw [runPar_nil_cons]; exact hgt
      | cons lbl rest ihl =>
        intro hgt
        rcases hlk : goLookup ts lbl with _ | dep
        · rw [runPar_cons_none oracle ts (n + 1) st rest errs hlk]; exact hgt
        · have hdm : dep ∈ ts := (goLookup_mem ts hlk).1
          have hcan : goLookup ts dep.label = some dep := by
            rw [(goLookup_mem ts hlk).2]; exact hlk
          have hgtA := hT st dep hdm hcan hgt
          rcases hr : runT oracle ts (n + 1) st dep with ⟨stA, r⟩
          rw [hr] at hgtA
          cases r with
          | error e =>
            rw [runPar_cons_err oracle ts (n + 1) st rest errs hlk hr]
            exact ihl stA (errs ++ [e]) hgtA
          | ok u =>
            cases u
            rw [runPar_cons_ok oracle ts (n + 1) st rest errs hlk hr]
            exact ihl stA errs hgtA

theorem topSeq_trace_mono (n : Nat) :
    ∀ (lst : List String) (st : RSt),
      st.trace <+: (topSeq oracle ts n st lst).1.trace := by
  intro lst
  induction lst with
  | nil => intro st; rw [topSeq_nil]
  | cons lbl rest ihl =>
    intro st
    rcases hlk : goLookup ts lbl with _ | dep
    · rw [topSeq_cons_none oracle ts n st rest hlk]
    · rcases hr : runSingleTaskWithDepsM oracle ts n st.trace dep with ⟨stA, r⟩
      have hpre : st.trace <+: stA.trace := by
        have := runT_trace_mono oracle ts n ⟨[], st.trace⟩ dep
        unfold runSingleTaskWithDepsM at hr
        rw [hr] at this
        exact this
      cases r with
      | error e =>
        rw [topSeq_cons_err oracle ts n st rest hlk hr]
        exact hpre
      | ok u =>
        cases u
        rw [topSeq_cons_ok oracle ts n st rest hlk hr]
        exact hpre.trans (ihl stA)

theorem topPar_trace_mono (n : Nat) :
    ∀ (lst : List String) (st : RSt) (errs : List RErr),
      st.trace <+: (topPar oracle ts n st lst errs).1.trace := by
  intro lst
  induction lst with
  | nil =>
    intro st errs
    cases errs with
    | nil => rw [topPar_nil_nil]
    | cons e es => rw [topPar_nil_cons]
  | cons lbl rest ihl =>
    intro st errs
    rcases hlk : goLookup ts lbl with _ | dep
    · rw [topPar_cons_none oracle ts n st rest errs hlk]
    · rcases hr : runSingleTaskWithDepsM oracle ts n st.trace dep with ⟨stA, r⟩
      have hpre : st.trace <+: stA.trace := by
        have := runT_trace_mono oracle ts n ⟨[], st.trace⟩ dep
        unfold runSingleTaskWithDepsM at hr
        rw [hr] at this
        exact this
      cases r with
      | error e =>
        rw [topPar_cons_err oracle ts n st rest errs hlk hr]
        exact hpre.trans (ihl stA (errs ++ [.depFailed lbl e]))
      | ok u =>
        cases u
        rw [topPar_cons_ok oracle ts n st rest errs hlk hr]
        exact hpre.trans (ihl stA errs)

theorem topSeq_gt (n : Nat) :
    ∀ (lst : List String) (st : RSt), GoodTrace ts st.trace →
      GoodTrace ts (topSeq oracle ts n st lst).1.trace := by
  intro lst
  induction lst with
  | nil => intro st hgt; rw [topSeq_nil]; exact hgt
  | cons lbl rest ihl =>
    intro st hgt
    rcases hlk : goLookup ts lbl with _ | dep
    · rw [topSeq_cons_none oracle ts n st rest hlk]; exact hgt
    · have hdm : dep ∈ ts := (goLookup_mem ts hlk).1
      have hcan : goLookup ts dep.label = some dep := by
        rw [(goLookup_mem ts hlk).2]; exact hlk
      have hgtA := (gt_pres oracle ts n).1 ⟨[], st.trace⟩ dep hdm hcan hgt
      rcases hr : runSingleTaskWithDepsM oracle ts n st.trace dep with ⟨stA, r⟩
      unfold runSingleTaskWithDepsM at hr
      rw [hr] at hgtA
      cases r with
      | error e =>
        rw [topSeq_cons_err oracle ts n st rest hlk hr]
        exact hgtA
      | ok u =>
        cases u
        rw [topSeq_cons_ok oracle ts n st rest hlk hr]
        exact ihl stA hgtA

theorem topPar_gt (n : Nat) :
    ∀ (lst : List String) (st : RSt) (errs : List RErr), GoodTrace ts st.trace →
      GoodTrace ts (topPar oracle ts n st lst errs).1.trace := by
  intro lst
  induction lst with
  | nil =>
    intro st errs hgt
    cases errs with
    | nil => rw [topPar_nil_nil]; exact hgt
    | cons e es => rw [topPar_nil_cons]; exact hgt
  | cons lbl rest ihl =>
    intro st errs hgt
    rcases hlk : goLookup ts lbl with _ | dep
    · rw [topPar_cons_none oracle ts n st rest errs hlk]; exact hgt
    · have hdm : dep ∈ ts := (goLookup_mem ts hlk).1
      have hcan : goLookup ts dep.label = some dep := by
        rw [(goLookup_mem ts hlk).2]; exact hlk
      have hgtA := (gt_pres oracle ts n).1 ⟨[], st.trace⟩ dep hdm hcan hgt
      rcases hr : runSingleTaskWithDepsM oracle ts n st.trace dep with ⟨stA, r⟩
      unfold runSingleTaskWithDepsM at hr
      rw [hr] at hgtA
      cases r with
      | error e =>
        rw [topPar_cons_err oracle ts n st rest errs hlk hr]
        exact ihl stA (errs ++ [.depFailed lbl e]) hgtA
      | ok u =>
        cases u
        rw [topPar_cons_ok oracle ts n st rest errs hlk hr]
        exact ihl stA errs hgtA

theorem topSeq_ok_mem {n : Nat} {st st' : RSt} {lst : List String}
    (h : topSeq oracle ts n st lst = (st', .ok ())) :
    ∀ lbl ∈ lst, lbl ∈ st'.trace := by
  induction lst generalizing st with
  | nil => intro lbl hl; exact absurd hl (by simp)
  | cons l0 rest ihl =>
    rcases hlk : goLookup ts l0 with _ | dep
    · rw [topSeq_cons_none oracle ts n st rest hlk] at h
      exact absurd h (by simp)
    · rcases hr : runSingleTaskWithDepsM oracle ts n st.trace dep with ⟨stA, r⟩
      cases r with
      | error e =>
        rw [topSeq_cons_err oracle ts n st rest hlk hr] at h
        exact absurd h (by simp)
      | ok u =>
        cases u
        rw [topSeq_cons_ok oracle ts n st rest hlk hr] at h
        intro lbl hl
        rcases List.mem_cons.mp hl with h' | h'
        · subst h'
          unfold runSingleTaskWithDepsM at hr
          have hmem : dep.label ∈ stA.trace := runT_ok_mem oracle ts hr
          have hlbl : dep.label = lbl := (goLookup_mem ts hlk).2
          rw [← hlbl]
          have hpre : stA.trace <+: st'.trace := by
            have := topSeq_trace_mono oracle ts n rest stA
            rw [h] at this
            exact this
          exact hpre.subset hmem
        · exact ihl h lbl h'

theorem topPar_ok_errs {n : Nat} {st st' : RSt} {lst : List String}
    {errs : List RErr}
    (h : topPar oracle ts n st lst errs = (st', .ok ())) : errs = [] := by
  induction lst generalizing st errs with
  | nil =>
    cases errs with
    | nil => rfl
    | cons e es =>
      rw [topPar_nil_cons] at h
      exact absurd h (by simp)
  | cons l0 rest ihl =>
    rcases hlk : goLookup ts l0 with _ | dep
    · rw [topPar_cons_none oracle ts n st rest errs hlk] at h
      exact absurd h (by simp)
    · rcases hr : runSingleTaskWithDepsM oracle ts n st.trace dep with ⟨stA, r⟩
      cases r with
      | error e =>
        rw [topPar_cons_err oracle ts n st rest errs hlk hr] at h
        have := ihl h
        exact absurd this (by simp)
      | ok u =>
        cases u
        rw [topPar_cons_ok oracle ts n st rest errs hlk hr] at h
        exact ihl h

theorem topPar_ok_mem {n : Nat} {st st' : RSt} {lst : List String}
    {errs : List RErr}
    (h : topPar oracle ts n st lst errs = (st', .ok ())) :
    ∀ lbl ∈ lst, lbl ∈ st'.trace := by
  induction lst generalizing st errs with
  | nil => intro lbl hl; exact absurd hl (by simp)
  | cons l0 rest ihl =>
    rcases hlk : goLookup ts l0 with _ | dep
    · rw [topPar_cons_none oracle ts n st rest errs hlk] at h
      exact absurd h (by simp)
    · rcases hr : runSingleTaskWithDepsM oracle ts n st.trace dep with ⟨stA, r⟩
      cases r with
      | error e =>
        rw [topPar_cons_err oracle ts n st rest errs hlk hr] at h
        have := topPar_ok_errs oracle ts h
        exact absurd this (by simp)
      | ok u =>
        cases u
        rw [topPar_cons_ok oracle ts n st rest errs hlk hr] at h
        intro lbl hl
        rcases List.mem_cons.mp hl with h' | h'
        · subst h'
          unfold runSingleTaskWithDepsM at hr
          have hmem : dep.label ∈ stA.trace := runT_ok_mem oracle ts hr
          have hlbl : dep.label = lbl := (goLookup_mem ts hlk).2
          rw [← hlbl]
          have hpre : stA.trace <+: st'.trace := by
            have := topPar_trace_mono oracle ts n rest stA errs
            rw [h] at this
            exact this
          exact hpre.subset hmem
        · exact ihl h lbl h'

end TracePres

/-- C3. Dependency resolution is recursive and depth-first: in the
execution trace of a full `RunTask` run, every executed task appears only
after every one of its (index-registered) dependencies has been executed,
at every nesting depth — not only for the direct dependencies of the root.
The only hypothesis is that the root task is registered in the index under
its own label. (No acyclicity assumption is needed: the invariant holds
for every graph, which implies the claim for the acyclic ones.) -/
theorem c3_depth_first (oracle : String → Bool) (ts : List GTask) (n : Nat)
    (root : GTask) (hroot : goLookup ts root.label = some root) :
    GoodTrace ts (RunTaskModel oracle ts n root).1.trace := by
  by_cases h0 : root.dependsOn = []
  · rw [RunTaskModel_noDeps oracle ts n h0]
    unfold execTask
    refine GoodTrace_append (GoodTrace_nil ts) root.label ?_
    intro d hd
    simp only [depsOfLabel, hroot, h0] at hd
    exact absurd hd (by simp)
  · by_cases h1 : goToLower root.dependsOrder = "sequence"
    · rcases hts : topSeq oracle ts n ⟨[], []⟩ root.dependsOn with ⟨stF, rF⟩
      have hgtF : GoodTrace ts stF.trace := by
        have := topSeq_gt oracle ts n root.dependsOn ⟨[], []⟩ (GoodTrace_nil ts)
        rw [hts] at this
        exact this
      cases rF with
      | error e =>
        rw [RunTaskModel_seq_err oracle ts n h0 h1 hts]
        exact hgtF
      | ok u =>
        cases u
        rw [RunTaskModel_seq_ok oracle ts n h0 h1 hts]
        unfold execTask
        refine GoodTrace_append hgtF root.label ?_
        intro d hd
        simp only [depsOfLabel, hroot] at hd
        exact topSeq_ok_mem oracle ts hts d hd
    · rcases hts : topPar oracle ts n ⟨[], []⟩ root.dependsOn [] with ⟨stF, rF⟩
      have hgtF : GoodTrace ts stF.trace := by
        have := topPar_gt oracle ts n root.dependsOn ⟨[], []⟩ [] (GoodTrace_nil ts)
        rw [hts] at this
        exact this
      cases rF with
      | error e =>
        rw [RunTaskModel_par_err oracle ts n h0 h1 hts]
        exact hgtF
      | ok u =>
        cases u
        rw [RunTaskModel_par_ok oracle ts n h0 h1 hts]
        unfold execTask
        refine GoodTrace_append hgtF root.label ?_
        intro d hd
        simp only [depsOfLabel, hroot] at hd
        exact topPar_ok_mem oracle ts hts d hd

/-- A three-level chain `A → B → C` used as the C3 witness. -/
def chainTaskC : GTask := ⟨"C", [], ""⟩

def chainTaskB : GTask := ⟨"B", ["C"], "sequence"⟩

def chainTaskA : GTask := ⟨"A", ["B"], "sequence"⟩

def chainTasks : List GTask := [chainTaskA, chainTaskB, chainTaskC]

theorem c3_depth_first_witness :
    GoodTrace chainTasks
      (RunTaskModel (fun _ => true) chainTasks 5 chainTaskA).1.trace :=
  c3_depth_first (fun _ => true) chainTasks 5 chainTaskA (by decide)

/-! ## Claim C8: sequence-order dependencies abort on first failure -/

/-- Splitting the top-level sequence loop: once a prefix has succeeded, the
loop continues on the remainder from the reached state. -/
theorem topSeq_ok_append (oracle : String → Bool) (ts : List GTask)
    {n : Nat} {st st1 : RSt} {xs : List String}
    (h : topSeq oracle ts n st xs = (st1, .ok ())) (ys : List String) :
    topSeq oracle ts n st (xs ++ ys) = topSeq oracle ts n st1 ys := by
  induction xs generalizing st with
  | nil =>
    rw [topSeq_nil] at h
    have h1 : st = st1 := ((Prod.mk.injEq _ _ _ _).mp h).1
    rw [List.nil_append, h1]
  | cons l0 rest ihl =>
    rcases hlk : goLookup ts l0 with _ | dep
    · rw [topSeq_cons_none oracle ts n st rest hlk] at h
      exact absurd h (by simp)
    · rcases hr : runSingleTaskWithDepsM oracle ts n st.trace dep with ⟨stA, r⟩
      cases r with
      | error e =>
        rw [topSeq_cons_err oracle ts n st rest hlk hr] at h
        exact absurd h (by simp)
      | ok u =>
        cases u
        rw [topSeq_cons_ok oracle ts n st rest hlk hr] at h
        rw [List.cons_append, topSeq_cons_ok oracle ts n st (rest ++ ys) hlk hr]
        exact ihl h

/-- C8. For a task with `dependsOrder = "sequence"` (case-insensitive) and
dependency list `xs ++ d :: ys`: if every dependency in `xs` succeeds and
the dependency `d` then fails with error `e`, the whole run returns `e`
wrapped with label `d` (`dependency d failed: ...`), and its final state —
in particular the execution trace — is exactly the state reached at `d`'s
failure: the dependencies `ys` after the failure are never executed, nor is
the root task. -/
theorem c8_sequence_abort (oracle : String → Bool) (ts : List GTask)
    (n : Nat) (root : GTask) (xs ys : List String) (d : String)
    (td : GTask) (st1 st2 : RSt) (e : RErr)
    (h1 : goToLower root.dependsOrder = "sequence")
    (h2 : root.dependsOn = xs ++ d :: ys)
    (h3 : topSeq oracle ts n ⟨[], []⟩ xs = (st1, .ok ()))
    (h4 : goLookup ts d = some td)
    (h5 : runSingleTaskWithDepsM oracle ts n st1.trace td = (st2, .error e)) :
    RunTaskModel oracle ts n root = (st2, .error (.depFailed d e)) := by
  have hne : root.dependsOn ≠ [] := by
    rw [h2]
    simp
  have hfull : topSeq oracle ts n ⟨[], []⟩ root.dependsOn =
      (st2, .error (.depFailed d e)) := by
    rw [h2, topSeq_ok_append oracle ts h3 (d :: ys),
      topSeq_cons_err oracle ts n st1 ys h4 h5]
  exact RunTaskModel_seq_err oracle ts n hne h1 hfull

/-- Witness graph for C8: `X` succeeds, `Y` fails, `Z` would follow. -/
def seqTaskX : GTask := ⟨"X", [], ""⟩

def seqTaskY : GTask := ⟨"Y", [], ""⟩

def seqTaskZ : GTask := ⟨"Z", [], ""⟩

def seqTasks : List GTask := [seqTaskX, seqTaskY, seqTaskZ]

def seqRoot : GTask := ⟨"R", ["X", "Y", "Z"], "Sequence"⟩

def seqOracle : String → Bool := fun l => !(l == "Y")

theorem c8_sequence_abort_witness :
    RunTaskModel seqOracle seqTasks 3 seqRoot =
      (⟨["Y"], ["X", "Y"]⟩, .error (.depFailed "Y" (.exec "Y"))) :=
  c8_sequence_abort seqOracle seqTasks 3 seqRoot ["X"] ["Z"] "Y"
    seqTaskY ⟨["X"], ["X"]⟩ ⟨["Y"], ["X", "Y"]⟩ (.exec "Y")
    (by decide) rfl rfl rfl rfl

/-! ## Claims C5: POSIX argument quoting -/

/-- The two sequential `ReplaceAll` passes of the code equal the one-pass
spec escape (list level). -/
theorem escape_two_pass_list (l : List Char) :
    (l.foldr (fun x acc => (if x = '\\' then ['\\', '\\'] else [x]) ++ acc) []).foldr
      (fun x acc => (if x = '\x22' then ['\\', '\x22'] else [x]) ++ acc) []
    = l.foldr (fun c acc => specEscapeChar c ++ acc) [] := by
  induction l with
  | nil => rfl
  | cons c cs ih =>
    rw [List.foldr_cons, List.foldr_cons, List.foldr_append, ih]
    by_cases hb : c = '\\'
    · subst hb
      rw [if_pos rfl]
      simp [specEscapeChar]
    · rw [if_neg hb]
      by_cases hq : c = '\x22'
      · subst hq
        simp [specEscapeChar]
      · simp [specEscapeChar, hb, hq]

/-- The two sequential `ReplaceAll` passes of the code equal the one-pass
spec escape. -/
theorem escape_two_pass (s : String) :
    replaceAllChar (replaceAllChar s '\\' ['\\', '\\']) '\x22' ['\\', '\x22'] =
      specEscape s := by
  unfold replaceAllChar specEscape
  have hmk : ∀ l : List Char, (String.mk l).toList = l := fun l => rfl
  rw [hmk]
  congr 1
  exact escape_two_pass_list s.toList

/-- C5 (counterexample). The claim states that an empty string is returned
unchanged; the code returns the two-character quoted empty string `""`
instead. -/
theorem c5_posix_quote_counterexample : posixQuoteForShell "" ≠ "" := by
  decide

/-- C5 (amended). `posixQuoteForShell` (as in `runner/run_task.go`) behaves
exactly as the amended claim says: an empty string becomes the quoted
empty string `""`; a non-empty string with unbalanced quote characters (a
single quote present, or an odd count of double quotes) is returned
unchanged; otherwise a string containing whitespace or a shell
metacharacter is wrapped in double quotes with backslash and double-quote
characters escaped; otherwise the string is returned unchanged. -/
theorem c5_posix_quote_amended (s : String) :
    posixQuoteForShell s = posixQuoteSpecC5 s := by
  unfold posixQuoteForShell posixQuoteSpecC5
  by_cases h0 : s = ""
  · simp [h0]
  · rw [if_neg h0, if_neg h0]
    by_cases h1 : hasUnbalancedQuotes s
    · have h1' : '\x27' ∈ s.toList ∨ (s.toList.count '\x22') % 2 = 1 := h1
      rw [if_pos h1, if_pos h1']
    · have h1' : ¬('\x27' ∈ s.toList ∨ (s.toList.count '\x22') % 2 = 1) := h1
      rw [if_neg h1, if_neg h1']
      have hq : containsAnyRunes s posixMetaChars = true ↔ needsPosixQuote s := by
        unfold containsAnyRunes needsPosixQuote
        simp
      by_cases h2 : needsPosixQuote s
      · rw [if_pos (hq.mpr h2), if_pos h2]
        dsimp only
        rw [escape_two_pass]
      · rw [if_neg (fun hc => h2 (hq.mp hc)), if_neg h2]

/-- C5 (amended, witness): the four branches of the amended claim at
concrete inputs. -/
theorem c5_posix_quote_amended_witness :
    posixQuoteForShell "" = "\x22\x22" ∧
    posixQuoteForShell "it\x27s" = "it\x27s" ∧
    posixQuoteForShell "a\\b" = "\x22a\\\\b\x22" ∧
    posixQuoteForShell "plain" = "plain" := by
  refine ⟨?_, ?_, ?_, ?_⟩
  · rw [c5_posix_quote_amended]; decide
  · rw [c5_posix_quote_amended]; decide
  · rw [c5_posix_quote_amended]; decide
  · rw [c5_posix_quote_amended]; decide

/-! ## Claim C9: platform overrides -/

theorem applyOverrideBlock_eq (t : MTask) (p : PlatformTask) :
    applyOverrideBlock t p =
      { t with
        command := if p.command = "" then t.command else p.command
        args := p.args.getD t.args
        options := match p.options with
                   | some o => some o
                   | none => t.options
        presentation := match p.presentation with
                        | some pr => some pr
                        | none => t.presentation } := by
  unfold applyOverrideBlock
  rcases p with ⟨pc, pa, po, pp⟩
  by_cases hc : pc = "" <;>
    rcases pa with _ | a <;> rcases po with _ | o <;> rcases pp with _ | pr <;>
    simp [hc]

/-- C9 (counterexample). A present-but-empty override args list replaces
the base args (the code checks slice non-nilness, not non-emptiness), so a
field without a "present and non-empty" override does NOT always keep the
base value, contradicting the claim. -/
def c9Task : MTask :=
  ⟨"t", "shell", "make", "", ["a"], none, none,
   some ⟨"", some [], none, none⟩, none, none⟩

theorem c9_overrides_counterexample :
    (applyPlatformOverrides "linux" c9Task).args ≠ c9Task.args := by
  decide

/-- C9 (amended). Deriving the effective task replaces `command` exactly
when the override command is non-empty, `args` exactly when the override
args list is present (even when empty), and `options`/`presentation`
exactly when present; all other fields keep the base task's values, and
without an override block for the current OS the task is returned
unchanged. (The original task value is never mutated: the function is
pure.) -/
theorem c9_overrides_amended (goos : String) (t : MTask) :
    applyPlatformOverrides goos t = applySpecC9 goos t := by
  by_cases hw : goos = "windows"
  · rcases hb : t.windows with _ | p <;>
      simp [applyPlatformOverrides, applySpecC9, hw, hb, applyOverrideBlock_eq]
  · by_cases hd : goos = "darwin"
    · rcases hb : t.osx with _ | p <;>
        simp [applyPlatformOverrides, applySpecC9, hw, hd, hb, applyOverrideBlock_eq]
    · by_cases hl : goos = "linux"
      · rcases hb : t.linux with _ | p <;>
          simp [applyPlatformOverrides, applySpecC9, hw, hd, hl, hb, applyOverrideBlock_eq]
      · simp [applyPlatformOverrides, applySpecC9, hw, hd, hl]

/-! ## Claim C7: npm command resolution -/

/-- C7. Package-manager command resolution: a non-empty (trimmed) script
yields `pm run <script> [-- args...]`; with no script, a non-empty command
that is a recognised builtin other than the explicit `run`/`run-script`
passes through as `pm <cmd> <args...>`; a non-builtin command becomes
`pm run <cmd> [-- args...]`; and an explicit `run`/`run-script` with no
arguments is an error. -/
theorem c7_npm_resolution (pm sc cmd : String) (args : List String) :
    (goTrim sc ≠ "" →
      buildCmdNpm pm sc cmd args =
        .ok (pm :: "run" :: goTrim sc :: (if args = [] then [] else "--" :: args)))
  ∧ (goTrim sc = "" → goTrim cmd ≠ "run" → goTrim cmd ≠ "run-script" →
      isNpmBuiltin (goTrim cmd) = true →
      buildCmdNpm pm sc cmd args = .ok (pm :: goTrim cmd :: args))
  ∧ (goTrim sc = "" → goTrim cmd ≠ "" → isNpmBuiltin (goTrim cmd) = false →
      buildCmdNpm pm sc cmd args =
        .ok (pm :: "run" :: goTrim cmd :: (if args = [] then [] else "--" :: args)))
  ∧ (goTrim sc = "" → (goTrim cmd = "run" ∨ goTrim cmd = "run-script") →
      args = [] → ∃ msg, buildCmdNpm pm sc cmd args = .error msg) := by
  refine ⟨?_, ?_, ?_, ?_⟩
  · intro h
    unfold buildCmdNpm
    rw [if_pos h]
  · intro h hr1 hr2 hb
    have hcne : goTrim cmd ≠ "" := by
      intro hce
      rw [hce] at hb
      exact absurd hb (by decide)
    unfold buildCmdNpm
    rw [if_neg (fun hc => hc h)]
    dsimp only
    rw [if_pos hcne]
    dsimp only
    rw [if_neg (by rintro (hx | hx); exacts [hr1 hx, hr2 hx]), if_pos hb]
  · intro h hcne hb
    have hr1 : goTrim cmd ≠ "run" := by
      intro hx; rw [hx] at hb; exact absurd hb (by decide)
    have hr2 : goTrim cmd ≠ "run-script" := by
      intro hx; rw [hx] at hb; exact absurd hb (by decide)
    unfold buildCmdNpm
    rw [if_neg (fun hc => hc h)]
    dsimp only
    rw [if_pos hcne]
    dsimp only
    rw [if_neg (by rintro (hx | hx); exacts [hr1 hx, hr2 hx]),
      if_neg (by rw [hb]; simp)]
  · intro h hr hargs
    have hcne : goTrim cmd ≠ "" := by
      intro hce
      rcases hr with hx | hx <;> rw [hce] at hx <;> exact absurd hx.symm (by decide)
    unfold buildCmdNpm
    rw [if_neg (fun hc => hc h)]
    dsimp only
    rw [if_pos hcne]
    dsimp only
    rw [if_pos hr]
    subst hargs
    exact ⟨_, rfl⟩

theorem c7_npm_resolution_witness :
    buildCmdNpm "npm" "build" "" ["--flag"] =
      .ok ["npm", "run", "build", "--", "--flag"]
  ∧ buildCmdNpm "npm" "" "ci" [] = .ok ["npm", "ci"]
  ∧ buildCmdNpm "npm" "" "lint" ["--fix"] =
      .ok ["npm", "run", "lint", "--", "--fix"]
  ∧ ∃ msg, buildCmdNpm "npm" "" "run" [] = .error msg := by
  refine ⟨?_, ?_, ?_, ?_⟩
  · exact ((c7_npm_resolution "npm" "build" "" ["--flag"]).1 (by decide)).trans (by rfl)
  · exact ((c7_npm_resolution "npm" "" "ci" []).2.1 (by decide) (by decide)
      (by decide) (by decide)).trans (by rfl)
  · exact ((c7_npm_resolution "npm" "" "lint" ["--fix"]).2.2.1 (by decide)
      (by decide) (by decide)).trans (by rfl)
  · exact (c7_npm_resolution "npm" "" "run" []).2.2.2 (by decide) (by decide) rfl

/-! ## Claim C10: empty environment override is not applied -/

/-- C10. If `VSTASK_INPUT_<UPPERCASED_ID>` is set to the empty string, the
override is not applied: `Resolve` behaves exactly as if the variable were
unset (the `os.Getenv` result collapses set-empty and unset, and the
`env != ""` guard rejects both). -/
theorem c10_empty_env_override (env : String → Option String)
    (inputs : List InputDef) (orc : ResolveOracles)
    (cache : List (String × String)) (id : String)
    (h : env ("VSTASK_INPUT_" ++ goToUpper id) = some "") :
    Resolve env inputs orc cache id =
      Resolve (fun k => if k = "VSTASK_INPUT_" ++ goToUpper id then none else env k)
        inputs orc cache id := by
  unfold Resolve
  rw [h]
  simp

def c10Oracle : ResolveOracles :=
  ⟨fun _ _ _ => "typed", fun _ _ _ => "picked", fun _ _ => "line", fun _ => "out"⟩

theorem c10_empty_env_override_witness :
    Resolve (fun _ => some "") [] c10Oracle [] "x" =
      Resolve (fun k => if k = "VSTASK_INPUT_" ++ goToUpper "x" then none
               else (fun _ => some ("" : String)) k) [] c10Oracle [] "x" :=
  c10_empty_env_override (fun _ => some "") [] c10Oracle [] "x" rfl

/-! ## Claim C1: non-zero exit on the stdio path is swallowed (code bug) -/

/-- The failing configuration: PTY unavailable (e.g. no TTY or
`VSTASK_DISABLE_PTY=1`), a non-bash command whose process exits with
status 1. -/
def c1Behavior : SWBehavior :=
  ⟨false, false, .noPty, none, .noPty, none, none, none, some (.exit 1), none⟩

/-- C1 (code bug). On the plain-stdio path, `startAndWait` binds the
result of `startAndWaitStdio` to a local `err` that is only compared to
nil and then consults and returns the never-assigned named return value
`retErr` (still nil): a non-zero process exit is replaced by a nil/success
result, and `runTaskInternal`'s normal path reports success. The spec (and
the function's own structure) intend the exit error to be propagated, as
the PTY path does (third conjunct). -/
theorem c1_exit_swallowed :
    startAndWait c1Behavior true = none
  ∧ runNormalPath c1Behavior = none
  ∧ c1Behavior.stdioMain = some (.exit 1)
  ∧ (∀ b : SWBehavior, b.canPTY = true → b.ptyStart1 = .ok →
      startAndWait b true = b.ptyWait1) := by
  refine ⟨rfl, rfl, rfl, ?_⟩
  intro b h1 h2
  unfold startAndWait
  rw [h1, h2]
  rfl

/-- A behaviour where the PTY path is available and the PTY start
succeeds: the process exit error is propagated verbatim (contrast with the
stdio path of `c1Behavior`). -/
def c1PtyB : SWBehavior :=
  ⟨true, false, .ok, some (.exit 1), .noPty, none, none, none, none, none⟩

theorem c1_exit_swallowed_witness :
    c1PtyB.canPTY = true ∧ c1PtyB.ptyStart1 = PtyStart.ok ∧
      startAndWait c1PtyB true = c1PtyB.ptyWait1 :=
  ⟨rfl, rfl, c1_exit_swallowed.2.2.2 c1PtyB rfl rfl⟩

/-! ## Claim C4: readiness gating -/

/-- C4. For a background task with a usable compiled matcher: if some
output line fires the matcher before the process exit is observed, the
readiness-gated run returns success at the first firing line, leaving the
remaining events — including the process exit — unconsumed (the process
keeps running and its exit code is never observed); if no line fires
before the exit, the exit result (success or failure) is returned
instead. A line fires when it is non-empty and the matcher has
immediate-activation or its begin pattern matches the line. -/
theorem c4_readiness (compile : String → Option (String → Bool))
    (t : BgTask) (bg : BgMatcher) (r : Bool)
    (hbg : extractBgMatcher compile t = some bg) :
    (∀ (pre post : List String) (l : String),
      (∀ x ∈ pre, firesReady bg x = false) → firesReady bg l = true →
      startAndWaitReady bg ((pre ++ l :: post).map .line ++ [.exit r]) =
        .ready (post.map .line ++ [.exit r]))
  ∧ (∀ ls : List String, (∀ x ∈ ls, firesReady bg x = false) →
      startAndWaitReady bg (ls.map .line ++ [.exit r]) = .exited r) := by
  constructor
  · intro pre post l hpre hl
    induction pre with
    | nil =>
      simp only [List.nil_append, List.map_cons, List.cons_append]
      unfold startAndWaitReady
      rw [if_pos hl]
    | cons p pre' ih =>
      simp only [List.cons_append, List.map_cons]
      unfold startAndWaitReady
      rw [if_neg (by rw [hpre p (List.mem_cons_self _ _)]; simp)]
      exact ih (fun x hx => hpre x (List.mem_cons_of_mem _ hx))
  · intro ls hls
    induction ls with
    | nil =>
      simp only [List.map_nil, List.nil_append]
      unfold startAndWaitReady
      rfl
    | cons p ls' ih =>
      simp only [List.map_cons, List.cons_append]
      unfold startAndWaitReady
      rw [if_neg (by rw [hls p (List.mem_cons_self _ _)]; simp)]
      exact ih (fun x hx => hls x (List.mem_cons_of_mem _ hx))

def c4Task : BgTask := ⟨true, some [.obj (some ⟨true, "", ""⟩)]⟩

def c4Bg : BgMatcher := ⟨true, none, none⟩

theorem c4_readiness_witness :
    startAndWaitReady c4Bg
        ((([] : List String) ++ "hi" :: ["more"]).map .line ++ [.exit true]) =
      .ready (["more"].map .line ++ [.exit true]) :=
  (c4_readiness (fun _ => none) c4Task c4Bg true rfl).1 [] ["more"] "hi"
    (by simp) rfl

/-! ## Claim C6: each input id resolved once, with caching -/

theorem cacheGet_append_self {cache : List (String × String)} {id v : String}
    (h : cacheGet cache id = none) :
    cacheGet (cache ++ [(id, v)]) id = some v := by
  induction cache with
  | nil => simp [cacheGet]
  | cons kv rest ih =>
    rcases kv with ⟨k, w⟩
    simp only [cacheGet] at h
    simp only [List.cons_append, cacheGet]
    by_cases hk : k = id
    · rw [if_pos hk] at h
      exact absurd h (by simp)
    · rw [if_neg hk] at h ⊢
      exact ih h

theorem cacheGet_append_mono {cache : List (String × String)} {k : String}
    (h : (cacheGet cache k).isSome) (id v : String) :
    (cacheGet (cache ++ [(id, v)]) k).isSome := by
  induction cache with
  | nil => simp [cacheGet] at h
  | cons kv rest ih =>
    rcases kv with ⟨k', w⟩
    simp only [cacheGet] at h
    simp only [List.cons_append, cacheGet]
    by_cases hk : k' = k
    · rw [if_pos hk]
      simp
    · rw [if_neg hk] at h ⊢
      exact ih h

/-- A cached id resolves to the cached value, with no cache change and no
source invocation. -/
theorem Resolve_cached {env : String → Option String}
    {inputs : List InputDef} {orc : ResolveOracles}
    {cache : List (String × String)} {id v : String}
    (h : cacheGet cache id = some v) :
    Resolve env inputs orc cache id = (v, cache, []) := by
  unfold Resolve
  rw [h]

/-- One `Resolve` call invokes an underlying source at most once (for its
own id only), always leaves the id cached, and preserves existing cache
entries. -/
theorem Resolve_props (env : String → Option String)
    (inputs : List InputDef) (orc : ResolveOracles)
    (cache : List (String × String)) (id : String) :
    ((Resolve env inputs orc cache id).2.2 = [] ∨
      (Resolve env inputs orc cache id).2.2 = [id])
  ∧ (cacheGet (Resolve env inputs orc cache id).2.1 id).isSome
  ∧ (∀ k, (cacheGet cache k).isSome →
      (cacheGet (Resolve env inputs orc cache id).2.1 k).isSome) := by
  rcases hc : cacheGet cache id with _ | v
  · have hP : ∀ (w : String) (evs : List String), (evs = [] ∨ evs = [id]) →
        (evs = [] ∨ evs = [id])
      ∧ (cacheGet (cache ++ [(id, w)]) id).isSome
      ∧ (∀ k, (cacheGet cache k).isSome →
          (cacheGet (cache ++ [(id, w)]) k).isSome) := by
      intro w evs hevs
      refine ⟨hevs, ?_, fun k hk => cacheGet_append_mono hk id w⟩
      rw [cacheGet_append_self hc]
      rfl
    unfold Resolve
    rw [hc]
    dsimp only
    repeat' split
    all_goals first
      | exact hP _ _ (Or.inl rfl)
      | exact hP _ _ (Or.inr rfl)
  · unfold Resolve
    rw [hc]
    exact ⟨Or.inl rfl, by rw [hc]; rfl, fun k hk => hk⟩

theorem goDedup_aux_mem (l : List String) :
    ∀ (acc : List String) (x : String),
      x ∈ l.foldl (fun acc x => if x ∈ acc then acc else acc ++ [x]) acc ↔
        x ∈ acc ∨ x ∈ l := by
  induction l with
  | nil => intro acc x; simp
  | cons y ys ih =>
    intro acc x
    simp only [List.foldl_cons]
    rw [ih]
    by_cases hy : y ∈ acc
    · rw [if_pos hy]
      constructor
      · rintro (h | h)
        · exact Or.inl h
        · exact Or.inr (List.mem_cons_of_mem _ h)
      · rintro (h | h)
        · exact Or.inl h
        · rcases List.mem_cons.mp h with h' | h'
          · exact Or.inl (h' ▸ hy)
          · exact Or.inr h'
    · rw [if_neg hy]
      constructor
      · rintro (h | h)
        · rcases List.mem_append.mp h with h' | h'
          · exact Or.inl h'
          · exact Or.inr (List.mem_cons.mpr (Or.inl (List.mem_singleton.mp h')))
        · exact Or.inr (List.mem_cons_of_mem _ h)
      · rintro (h | h)
        · exact Or.inl (List.mem_append.mpr (Or.inl h))
        · rcases List.mem_cons.mp h with h' | h'
          · exact Or.inl (List.mem_append.mpr (Or.inr (List.mem_singleton.mpr h')))
          · exact Or.inr h'

theorem goDedup_mem {l : List String} {x : String} :
    x ∈ goDedup l ↔ x ∈ l := by
  unfold goDedup
  rw [goDedup_aux_mem]
  simp

theorem goDedup_aux_nodup (l : List String) :
    ∀ acc : List String, acc.Nodup →
      (l.foldl (fun acc x => if x ∈ acc then acc else acc ++ [x]) acc).Nodup := by
  induction l with
  | nil => intro acc h; exact h
  | cons y ys ih =>
    intro acc h
    simp only [List.foldl_cons]
    by_cases hy : y ∈ acc
    · rw [if_pos hy]
      exact ih acc h
    · rw [if_neg hy]
      refine ih _ ?_
      rw [List.nodup_append]
      refine ⟨h, List.nodup_singleton _, ?_⟩
      intro a ha hmem
      rw [List.mem_singleton] at hmem
      subst hmem
      exact hy ha

theorem goDedup_nodup (l : List String) : (goDedup l).Nodup :=
  goDedup_aux_nodup l [] List.nodup_nil

theorem mem_foldrApp {α : Type} {f : α → List String} {x : String} :
    ∀ l : List α, x ∈ l.foldr (fun a acc => f a ++ acc) [] ↔ ∃ a ∈ l, x ∈ f a := by
  intro l
  induction l with
  | nil => simp
  | cons a as ih =>
    simp only [List.foldr_cons, List.mem_append, ih]
    constructor
    · rintro (h | ⟨b, hb, hx⟩)
      · exact ⟨a, List.mem_cons_self _ _, h⟩
      · exact ⟨b, List.mem_cons_of_mem _ hb, hx⟩
    · rintro ⟨b, hb, hx⟩
      rcases List.mem_cons.mp hb with h' | h'
      · exact Or.inl (h' ▸ hx)
      · exact Or.inr ⟨b, h', hx⟩

/-- `promptInputsForTask` over a duplicate-free id list: the recorded
source invocations are duplicate-free and drawn from the list, every
listed id ends up cached, and existing cache entries survive. -/
theorem promptInputsForTask_props (env : String → Option String)
    (inputs : List InputDef) (orc : ResolveOracles) :
    ∀ (ids : List String) (cache : List (String × String)), ids.Nodup →
      (promptInputsForTask env inputs orc cache ids).2.Nodup
    ∧ (∀ e ∈ (promptInputsForTask env inputs orc cache ids).2, e ∈ ids)
    ∧ (∀ id ∈ ids,
        (cacheGet (promptInputsForTask env inputs orc cache ids).1 id).isSome)
    ∧ (∀ k, (cacheGet cache k).isSome →
        (cacheGet (promptInputsForTask env inputs orc cache ids).1 k).isSome) := by
  intro ids
  induction ids with
  | nil =>
    intro cache _
    refine ⟨List.nodup_nil, ?_, ?_, fun k hk => hk⟩
    · intro e he; exact absurd he (by simp [promptInputsForTask])
    · intro id hid; exact absurd hid (by simp)
  | cons id rest ih =>
    intro cache hnd
    rcases List.nodup_cons.mp hnd with ⟨hid_rest, hnd'⟩
    rcases hR : Resolve env inputs orc cache id with ⟨v, cache1, evs⟩
    have hprops := Resolve_props env inputs orc cache id
    rw [hR] at hprops
    dsimp only at hprops
    obtain ⟨hevs, hidc, hmono⟩ := hprops
    have hrec := ih cache1 hnd'
    obtain ⟨hnd2, hsub2, hcached2, hmono2⟩ := hrec
    rcases hP : promptInputsForTask env inputs orc cache1 rest with ⟨cache2, evs2⟩
    rw [hP] at hnd2 hsub2 hcached2 hmono2
    dsimp only at hnd2 hsub2 hcached2 hmono2
    have hstep : promptInputsForTask env inputs orc cache (id :: rest) =
        (cache2, evs ++ evs2) := by
      simp only [promptInputsForTask, hR, hP]
    rw [hstep]
    dsimp only
    refine ⟨?_, ?_, ?_, ?_⟩
    · rcases hevs with he | he
      · rw [he, List.nil_append]
        exact hnd2
      · rw [he, List.singleton_append, List.nodup_cons]
        exact ⟨fun hmem => hid_rest (hsub2 id hmem), hnd2⟩
    · intro e he
      rcases List.mem_append.mp he with h' | h'
      · rcases hevs with h'' | h''
        · rw [h''] at h'; exact absurd h' (by simp)
        · rw [h''] at h'
          rw [List.mem_singleton.mp h']
          exact List.mem_cons_self _ _
      · exact List.mem_cons_of_mem _ (hsub2 e h')
    · intro i hi
      rcases List.mem_cons.mp hi with h' | h'
      · subst h'
        exact hmono2 i hidc
      · exact hcached2 i h'
    · intro k hk
      exact hmono2 k (hmono k hk)

/-- Substitution over a segment list whose referenced ids are all cached:
no cache change and no source invocation. -/
theorem replaceSegs_cached (env : String → Option String)
    (inputs : List InputDef) (orc : ResolveOracles) :
    ∀ (segs : List Seg) (cache : List (String × String)),
      (∀ id ∈ refsOfSegs segs, (cacheGet cache id).isSome) →
      (replaceSegs env inputs orc cache segs).2.1 = cache
    ∧ (replaceSegs env inputs orc cache segs).2.2 = [] := by
  intro segs
  induction segs with
  | nil => intro cache _; exact ⟨rfl, rfl⟩
  | cons sg rest ih =>
    intro cache hcached
    cases sg with
    | lit c =>
      have hr := ih cache (fun id hid => hcached id (by
        simpa [refsOfSegs] using hid))
      rcases hrest : replaceSegs env inputs orc cache rest with ⟨s', cache', evs⟩
      rw [hrest] at hr
      simp only [replaceSegs, hrest]
      exact hr
    | ref id =>
      have hid : (cacheGet cache id).isSome :=
        hcached id (by simp [refsOfSegs])
      rcases hv : cacheGet cache id with _ | v
      · rw [hv] at hid; exact absurd hid (by simp)
      · have hres := @Resolve_cached env inputs orc cache id v hv
        have hr := ih cache (fun i hi => hcached i (by
          simpa [refsOfSegs] using Or.inr hi))
        rcases hrest : replaceSegs env inputs orc cache rest with ⟨s', cache', evs⟩
        rw [hrest] at hr
        simp only [replaceSegs, hres, hrest]
        exact hr

theorem replaceInputs_cached (env : String → Option String)
    (inputs : List InputDef) (orc : ResolveOracles)
    (cache : List (String × String)) (s : String)
    (h : ∀ id ∈ refsOf s, (cacheGet cache id).isSome) :
    (replaceInputs env inputs orc cache s).2.1 = cache
  ∧ (replaceInputs env inputs orc cache s).2.2 = [] := by
  unfold replaceInputs
  exact replaceSegs_cached env inputs orc (parseSegs s.toList) cache h

theorem replaceInputsList_cached (env : String → Option String)
    (inputs : List InputDef) (orc : ResolveOracles) :
    ∀ (ss : List String) (cache : List (String × String)),
      (∀ s ∈ ss, ∀ id ∈ refsOf s, (cacheGet cache id).isSome) →
      (replaceInputsList env inputs orc cache ss).2.1 = cache
    ∧ (replaceInputsList env inputs orc cache ss).2.2 = [] := by
  intro ss
  induction ss with
  | nil => intro cache _; exact ⟨rfl, rfl⟩
  | cons s rest ih =>
    intro cache hcached
    have h1 := replaceInputs_cached env inputs orc cache s
      (hcached s (List.mem_cons_self _ _))
    rcases hr1 : replaceInputs env inputs orc cache s with ⟨s', cache1, evs1⟩
    rw [hr1] at h1
    dsimp only at h1
    obtain ⟨hc1, he1⟩ := h1
    have h2 := ih cache1 (fun x hx id hid => by
      rw [hc1]
      exact hcached x (List.mem_cons_of_mem _ hx) id hid)
    rcases hr2 : replaceInputsList env inputs orc cache1 rest with ⟨rest', cache2, evs2⟩
    rw [hr2] at h2
    dsimp only at h2
    simp only [replaceInputsList, hr1, hr2]
    exact ⟨by rw [h2.1, hc1], by rw [he1, h2.2]; rfl⟩

/-- C6: each distinct input id referenced anywhere in the effective
task's command, arguments, cwd, or environment values is resolved exactly
once per invocation. The full substitution pipeline's trace of source
invocations (prompt or shell) lists each id at most once (it is
duplicate-free), every recorded invocation is for a collected id of the
task, and any `Resolve` call that finds the id cached returns the cached
value with no source invocation and no cache change. -/
theorem c6_inputs_once (env : String → Option String)
    (inputs : List InputDef) (orc : ResolveOracles) (t : SubstTask) :
    (taskInputsPipeline env inputs orc t).2.Nodup
  ∧ (∀ e ∈ (taskInputsPipeline env inputs orc t).2,
      e ∈ collectInputRefsFromTask t)
  ∧ (∀ cache id v, cacheGet cache id = some v →
      Resolve env inputs orc cache id = (v, cache, [])) := by
  have hnd : (collectInputRefsFromTask t).Nodup := goDedup_nodup _
  have hprops := promptInputsForTask_props env inputs orc
    (collectInputRefsFromTask t) [] hnd
  rcases hp : promptInputsForTask env inputs orc [] (collectInputRefsFromTask t)
    with ⟨cache1, evs1⟩
  rw [hp] at hprops
  dsimp only at hprops
  obtain ⟨hnd1, hsub1, hcached1, _⟩ := hprops
  have hmem_cwd : ∀ id ∈ refsOf t.cwd, id ∈ collectInputRefsFromTask t := by
    intro id h
    simp only [collectInputRefsFromTask]
    rw [goDedup_mem]
    simp only [List.mem_append]
    exact Or.inl (Or.inr h)
  have hmem_cmd : ∀ id ∈ refsOf t.command, id ∈ collectInputRefsFromTask t := by
    intro id h
    simp only [collectInputRefsFromTask]
    rw [goDedup_mem]
    simp only [List.mem_append]
    exact Or.inl (Or.inl (Or.inl h))
  have hmem_arg : ∀ a ∈ t.args, ∀ id ∈ refsOf a,
      id ∈ collectInputRefsFromTask t := by
    intro a ha id h
    simp only [collectInputRefsFromTask]
    rw [goDedup_mem]
    simp only [List.mem_append]
    exact Or.inl (Or.inl (Or.inr ((mem_foldrApp _).mpr ⟨a, ha, h⟩)))
  have hmem_env : ∀ s ∈ t.env.map (fun kv => kv.2), ∀ id ∈ refsOf s,
      id ∈ collectInputRefsFromTask t := by
    intro s hs id h
    rcases List.mem_map.mp hs with ⟨kv, hkv, hkv2⟩
    simp only [collectInputRefsFromTask]
    rw [goDedup_mem]
    simp only [List.mem_append]
    exact Or.inr ((mem_foldrApp _).mpr ⟨kv, hkv, hkv2 ▸ h⟩)
  have h2 := replaceInputs_cached env inputs orc cache1 t.cwd
    (fun id hid => hcached1 id (hmem_cwd id hid))
  rcases hr2 : replaceInputs env inputs orc cache1 t.cwd
    with ⟨cwd2, cache2, evs2⟩
  rw [hr2] at h2
  dsimp only at h2
  rw [h2.1, h2.2] at hr2
  have h3 := replaceInputs_cached env inputs orc cache1 t.command
    (fun id hid => hcached1 id (hmem_cmd id hid))
  rcases hr3 : replaceInputs env inputs orc cache1 t.command
    with ⟨cmd3, cache3, evs3⟩
  rw [hr3] at h3
  dsimp only at h3
  rw [h3.1, h3.2] at hr3
  have h4 := replaceInputsList_cached env inputs orc t.args cache1
    (fun a ha id hid => hcached1 id (hmem_arg a ha id hid))
  rcases hr4 : replaceInputsList env inputs orc cache1 t.args
    with ⟨args4, cache4, evs4⟩
  rw [hr4] at h4
  dsimp only at h4
  rw [h4.1, h4.2] at hr4
  have h5 := replaceInputsList_cached env inputs orc (t.env.map (fun kv => kv.2))
    cache1 (fun s hs id hid => hcached1 id (hmem_env s hs id hid))
  rcases hr5 : replaceInputsList env inputs orc cache1 (t.env.map (fun kv => kv.2))
    with ⟨env5, cache5, evs5⟩
  rw [hr5] at h5
  dsimp only at h5
  rw [h5.1, h5.2] at hr5
  refine ⟨?_, ?_, ?_⟩
  · simp only [taskInputsPipeline, hp, hr2, hr3, hr4, hr5, List.append_nil]
    exact hnd1
  · intro e he
    simp only [taskInputsPipeline, hp, hr2, hr3, hr4, hr5,
      List.append_nil] at he
    exact hsub1 e he
  · intro cache id v hcv
    exact Resolve_cached hcv

theorem c6_inputs_once_witness :
    cacheGet [("x", "1")] "x" = some "1" ∧
      Resolve (fun _ => none) [] ⟨fun _ _ _ => "", fun _ _ _ => "", fun _ _ => "",
        fun _ => ""⟩ [("x", "1")] "x" = ("1", [("x", "1")], []) :=
  ⟨by decide,
   (c6_inputs_once (fun _ => none) []
      ⟨fun _ _ _ => "", fun _ _ _ => "", fun _ _ => "", fun _ => ""⟩
      ⟨"", [], "", []⟩).2.2 [("x", "1")] "x" "1" (by decide)⟩

end VsTask